import Mathlib

/-!
Verification of the Aho-Corasick automaton builder of `FailureLinks.py`.

The Python code works with mutable `TrieNode` objects linked by references.
We embed it as a node arena: `nodes : List TrieNode`, where a node reference
is the node's index in the arena (Python object identity becomes index
equality; nodes are appended in creation order, matching `node_id`
assignment).  `children` is an association list from characters to node
indices, in insertion order (Python dicts preserve insertion order).
`failure` is `none` before any failure link is assigned (Python `None`).
Loops that Python runs unboundedly are given explicit fuel; the fuel chosen
is proven sufficient for every automaton reachable through the public
operations.
-/

/-- A trie node, mirroring class `TrieNode` of `FailureLinks.py`. -/
structure TrieNode where
  children : List (Char × Nat)
  is_end : Bool
  failure : Option Nat
  output : List String
  node_id : Nat
deriving DecidableEq

/-- A freshly constructed `TrieNode()` whose `node_id` was just assigned. -/
def TrieNode.mkNew (id : Nat) : TrieNode :=
  { children := [], is_end := false, failure := none, output := [], node_id := id }

/-- The automaton, mirroring class `AhoCorasick`: a node arena plus the
`node_counter`.  Index 0 is the root. -/
structure AhoCorasick where
  nodes : List TrieNode
  node_counter : Nat
deriving DecidableEq

/-- `AhoCorasick.__init__`: a root whose failure points to itself, node id 0,
counter advanced to 1. -/
def AhoCorasick.initial : AhoCorasick :=
  { nodes := [{ children := [], is_end := false, failure := some 0,
                output := [], node_id := 0 }],
    node_counter := 1 }

/-- Dereference a node index in the arena (total; out-of-range indices,
which never arise through the public operations, give a dummy node). -/
def getNode (ns : List TrieNode) (i : Nat) : TrieNode :=
  ns.getD i (TrieNode.mkNew 0)

/-- Mutate the node at index `i` in place. -/
def updNode (ns : List TrieNode) (i : Nat) (f : TrieNode → TrieNode) : List TrieNode :=
  ns.set i (f (getNode ns i))

/-- `char in node.children` / `node.children[char]`: look a character up in a
node's child map. -/
def childIdx (ns : List TrieNode) (i : Nat) (c : Char) : Option Nat :=
  ((getNode ns i).children.find? (fun p => p.1 == c)).map (fun p => p.2)

/-- The walk of `add_pattern` over the characters of the pattern: follow
existing children, create missing ones (fresh node appended to the arena,
`node_id` taken from the counter, child link appended to the parent's map);
at the end of the pattern mark the final node terminal and append the
pattern verbatim to its output list. -/
def addPatternGo (pat : String) :
    List TrieNode → Nat → Nat → List Char → List TrieNode × Nat
  | ns, counter, node, [] =>
      (updNode ns node (fun nd =>
        { nd with is_end := true, output := nd.output ++ [pat] }), counter)
  | ns, counter, node, c :: rest =>
      match childIdx ns node c with
      | some j => addPatternGo pat ns counter j rest
      | none =>
          let newIdx := ns.length
          let ns1 := ns ++ [TrieNode.mkNew counter]
          let ns2 := updNode ns1 node (fun nd =>
            { nd with children := nd.children ++ [(c, newIdx)] })
          addPatternGo pat ns2 (counter + 1) newIdx rest

/-- `AhoCorasick.add_pattern`. -/
def add_pattern (ac : AhoCorasick) (pat : String) : AhoCorasick :=
  let r := addPatternGo pat ac.nodes ac.node_counter 0 pat.toList
  { nodes := r.1, node_counter := r.2 }

/-- The `while failure_node != self.root and char not in failure_node.children`
loop of `build_failure_links`, with explicit fuel.  When the loop would read
`failure_node.failure` on a node whose failure link is still unassigned the
Python code would raise; that situation is unreachable from the public
operations, and the embedding simply stops there. -/
def findFailureNode (ns : List TrieNode) (c : Char) : Nat → Nat → Nat
  | 0, cand => cand
  | fuel + 1, cand =>
      if cand ≠ 0 ∧ childIdx ns cand c = none then
        match (getNode ns cand).failure with
        | some f => findFailureNode ns c fuel f
        | none => cand
      else cand

/-- The body of the `for char, child in current.children.items()` loop of
`build_failure_links` for one child: find the failure candidate starting at
`current.failure`, apply the self-reference guard, assign `child.failure`,
then extend `child.output` with the output of the assigned failure node. -/
def setChildFailure (ns : List TrieNode) (current child : Nat) (c : Char) :
    List TrieNode :=
  let start := ((getNode ns current).failure).getD 0
  let cand := findFailureNode ns c ns.length start
  let tgt : Nat :=
    match childIdx ns cand c with
    | some t => if t ≠ child then t else 0
    | none => 0
  let ns1 := updNode ns child (fun nd => { nd with failure := some tgt })
  updNode ns1 child (fun nd =>
    { nd with output := nd.output ++ (getNode ns1 tgt).output })

/-- Process all children of a dequeued node in order. -/
def processKids (current : Nat) : List TrieNode → List (Char × Nat) → List TrieNode
  | ns, [] => ns
  | ns, (c, child) :: rest => processKids current (setChildFailure ns current child c) rest

/-- The BFS `while queue:` loop of `build_failure_links`, with explicit fuel
(one unit per dequeue; `nodes.length` units are proven sufficient for every
automaton built through the public operations). -/
def bfsLoop : Nat → List TrieNode → List Nat → List TrieNode
  | 0, ns, _ => ns
  | _ + 1, ns, [] => ns
  | fuel + 1, ns, current :: rest =>
      let kids := (getNode ns current).children
      bfsLoop fuel (processKids current ns kids) (rest ++ kids.map (fun p => p.2))

/-- The initialization loop of `build_failure_links`: every direct child of
the root gets the root as failure link. -/
def initRootKids : List TrieNode → List (Char × Nat) → List TrieNode
  | ns, [] => ns
  | ns, (_, child) :: rest =>
      initRootKids (updNode ns child (fun nd => { nd with failure := some 0 })) rest

/-- `AhoCorasick.build_failure_links`. -/
def build_failure_links (ac : AhoCorasick) : AhoCorasick :=
  let rootKids := (getNode ac.nodes 0).children
  let ns0 := initRootKids ac.nodes rootKids
  { nodes := bfsLoop ac.nodes.length ns0 (rootKids.map (fun p => p.2)),
    node_counter := ac.node_counter }

/-- The recursive `find_path` helper of `get_path_to_node` (depth-first
search by node identity), with fuel bounding the recursion depth.  The
`for char, child in node.children.items()` loop that returns the first
non-`None` recursive result is `List.findSome?` over the child list. -/
def findPathAux (ns : List TrieNode) (target : Nat) :
    Nat → Nat → String → Option String
  | 0, _, _ => none
  | fuel + 1, node, path =>
      if node = target then some path
      else (getNode ns node).children.findSome?
        (fun p => findPathAux ns target fuel p.2 (path.push p.1))

/-- `AhoCorasick.get_path_to_node`.  The Python `find_path(self.root) or
"UNKNOWN"` applies string truthiness: both `None` and the empty string fall
back to `"UNKNOWN"`. -/
def get_path_to_node (ac : AhoCorasick) (target : Nat) : String :=
  if target = 0 then "ROOT"
  else
    match findPathAux ac.nodes target (ac.nodes.length + 1) 0 "" with
    | some s => if s = "" then "UNKNOWN" else s
    | none => "UNKNOWN"

/-- One record of `get_failure_links_representation`. -/
structure LinkRecord where
  node_id : Nat
  path : String
  failure_node_id : Option Nat
  failure_path : String
  is_end : Bool
  output : List String
deriving DecidableEq

/-- `sorted(node.children.items())`: children sorted by character (keys are
distinct in every reachable automaton, so the second tuple component is
never compared). -/
def sortChildren (l : List (Char × Nat)) : List (Char × Nat) :=
  l.insertionSort (fun a b => a.1 ≤ b.1)

/-- The record built for one node by `traverse`: reconstructed path with
`"ROOT"` for the empty path, failure id and failure path (with Python
truthiness on the `failure` reference: `None` gives the string `"None"`). -/
def mkLinkRecord (ac : AhoCorasick) (node : Nat) (path : String) : LinkRecord :=
  let nd := getNode ac.nodes node
  { node_id := nd.node_id,
    path := if path = "" then "ROOT" else path,
    failure_node_id := nd.failure.map (fun f => (getNode ac.nodes f).node_id),
    failure_path := match nd.failure with
      | some f => get_path_to_node ac f
      | none => "None",
    is_end := nd.is_end,
    output := nd.output }

/-- The recursive `traverse` of `get_failure_links_representation`: emit the
node's record, then recurse into the children in sorted-by-character order,
concatenating the records in order.  (The `node.node_id is not None` guard
of the source is always true: every node ever stored in an automaton has
its id assigned at creation.) -/
def gflrTraverse (ac : AhoCorasick) : Nat → Nat → String → List LinkRecord
  | 0, _, _ => []
  | fuel + 1, node, path =>
      mkLinkRecord ac node path ::
        (sortChildren (getNode ac.nodes node).children).flatMap
          (fun p => gflrTraverse ac fuel p.2 (path.push p.1))

/-- `AhoCorasick.get_failure_links_representation`. -/
def get_failure_links_representation (ac : AhoCorasick) : List LinkRecord :=
  gflrTraverse ac (ac.nodes.length + 1) 0 ""

/-- Insert a list of patterns in order into a fresh automaton, as the
driver code of `FailureLinks.py` does before building failure links. -/
def insertAll (ps : List String) : AhoCorasick :=
  ps.foldl add_pattern AhoCorasick.initial

/-- The full pipeline of the driver code: insert every pattern in order,
then build the failure links. -/
def buildAutomaton (ps : List String) : AhoCorasick :=
  build_failure_links (insertAll ps)

/-- Walk the trie from the root along a string (the node "reached by a
path", used to state the scenario claims). -/
def nodeAtPath (ac : AhoCorasick) (s : String) : Option Nat :=
  s.toList.foldl (fun acc c => acc.bind (fun i => childIdx ac.nodes i c)) (some 0)

/-! ## Basic arena lemmas -/

theorem getNode_eq_getElem? (ns : List TrieNode) (i : Nat) :
    getNode ns i = (ns[i]?).getD (TrieNode.mkNew 0) := by
  simp [getNode, List.getD_eq_getElem?_getD]

theorem length_updNode (ns : List TrieNode) (i : Nat) (f : TrieNode → TrieNode) :
    (updNode ns i f).length = ns.length := by
  simp [updNode]

theorem getNode_updNode_self {ns : List TrieNode} {i : Nat} (f : TrieNode → TrieNode)
    (h : i < ns.length) : getNode (updNode ns i f) i = f (getNode ns i) := by
  simp [getNode_eq_getElem?, updNode, List.getElem?_set_eq_of_lt _ h]

theorem getNode_updNode_ne {ns : List TrieNode} {i j : Nat} (f : TrieNode → TrieNode)
    (h : i ≠ j) : getNode (updNode ns i f) j = getNode ns j := by
  simp [getNode_eq_getElem?, updNode, List.getElem?_set_ne h]

theorem getNode_updNode_big {ns : List TrieNode} {i : Nat} (f : TrieNode → TrieNode)
    (h : ns.length ≤ i) : updNode ns i f = ns := by
  simp [updNode, List.set_eq_of_length_le h]

theorem getNode_append_lt {ns : List TrieNode} {j : Nat} (x : TrieNode)
    (h : j < ns.length) : getNode (ns ++ [x]) j = getNode ns j := by
  simp [getNode_eq_getElem?, List.getElem?_append_left h]

theorem getNode_append_self (ns : List TrieNode) (x : TrieNode) :
    getNode (ns ++ [x]) ns.length = x := by
  simp [getNode_eq_getElem?]

theorem getNode_big {ns : List TrieNode} {j : Nat} (h : ns.length ≤ j) :
    getNode ns j = TrieNode.mkNew 0 := by
  simp [getNode_eq_getElem?, List.getElem?_eq_none h]

/-! ## The frame of `build_failure_links`

`build_failure_links` only ever rewrites the `failure` and `output` fields
of nodes; the trie structure (`children`), the terminal flags, the node ids
and the arena length are untouched. -/

/-- Two arenas with the same length whose nodes agree on `children`,
`is_end` and `node_id` everywhere. -/
def SameShape (ns ns' : List TrieNode) : Prop :=
  ns'.length = ns.length ∧
  ∀ j, (getNode ns' j).children = (getNode ns j).children ∧
    (getNode ns' j).is_end = (getNode ns j).is_end ∧
    (getNode ns' j).node_id = (getNode ns j).node_id

theorem sameShape_refl (ns : List TrieNode) : SameShape ns ns :=
  ⟨Eq.refl _, fun _ => ⟨Eq.refl _, Eq.refl _, Eq.refl _⟩⟩

theorem SameShape.trans {ns₁ ns₂ ns₃ : List TrieNode}
    (h₁ : SameShape ns₁ ns₂) (h₂ : SameShape ns₂ ns₃) : SameShape ns₁ ns₃ :=
  ⟨h₂.1.trans h₁.1, fun j =>
    ⟨(h₂.2 j).1.trans (h₁.2 j).1, (h₂.2 j).2.1.trans (h₁.2 j).2.1,
     (h₂.2 j).2.2.trans (h₁.2 j).2.2⟩⟩

/-- An in-place update that rewrites only `failure` and/or `output` keeps
the shape. -/
theorem sameShape_updNode (ns : List TrieNode) (i : Nat) (f : TrieNode → TrieNode)
    (hf : ∀ nd, (f nd).children = nd.children ∧ (f nd).is_end = nd.is_end ∧
      (f nd).node_id = nd.node_id) :
    SameShape ns (updNode ns i f) := by
  by_cases hi : i < ns.length
  · refine ⟨length_updNode ns i f, fun j => ?_⟩
    by_cases hji : i = j
    · subst hji
      rw [getNode_updNode_self f hi]
      exact hf (getNode ns i)
    · rw [getNode_updNode_ne f hji]
      exact ⟨rfl, rfl, rfl⟩
  · rw [getNode_updNode_big f (Nat.le_of_not_lt hi)]
    exact sameShape_refl ns

theorem sameShape_updFailureOutput (ns : List TrieNode) (i : Nat) (v : Option Nat)
    (os : List String) :
    SameShape ns (updNode (updNode ns i (fun nd => { nd with failure := v })) i
      (fun nd => { nd with output := nd.output ++ os })) :=
  (sameShape_updNode ns i (fun nd => { nd with failure := v })
      (fun _ => ⟨rfl, rfl, rfl⟩)).trans
    (sameShape_updNode (updNode ns i (fun nd => { nd with failure := v })) i
      (fun nd => { nd with output := nd.output ++ os }) (fun _ => ⟨rfl, rfl, rfl⟩))

theorem sameShape_setChildFailure (ns : List TrieNode) (current child : Nat) (c : Char) :
    SameShape ns (setChildFailure ns current child c) := by
  unfold setChildFailure
  exact sameShape_updFailureOutput ns child _ _

theorem sameShape_processKids (current : Nat) :
    ∀ (kids : List (Char × Nat)) (ns : List TrieNode),
      SameShape ns (processKids current ns kids)
  | [], ns => sameShape_refl ns
  | (c, child) :: rest, ns =>
    (sameShape_setChildFailure ns current child c).trans
      (sameShape_processKids current rest (setChildFailure ns current child c))

theorem sameShape_bfsLoop :
    ∀ (fuel : Nat) (ns : List TrieNode) (q : List Nat),
      SameShape ns (bfsLoop fuel ns q)
  | 0, ns, _ => sameShape_refl ns
  | _ + 1, ns, [] => sameShape_refl ns
  | fuel + 1, ns, current :: rest => by
      rw [bfsLoop]
      exact (sameShape_processKids current (getNode ns current).children ns).trans
        (sameShape_bfsLoop fuel _ _)

theorem sameShape_initRootKids :
    ∀ (kids : List (Char × Nat)) (ns : List TrieNode),
      SameShape ns (initRootKids ns kids)
  | [], ns => sameShape_refl ns
  | (c, child) :: rest, ns =>
    (sameShape_updNode ns child (fun nd => { nd with failure := some 0 })
      (fun _ => ⟨rfl, rfl, rfl⟩)).trans (sameShape_initRootKids rest _)

theorem sameShape_build (ac : AhoCorasick) :
    SameShape ac.nodes (build_failure_links ac).nodes := by
  unfold build_failure_links
  exact (sameShape_initRootKids (getNode ac.nodes 0).children ac.nodes).trans
    (sameShape_bfsLoop _ _ _)

/-- C10: `build_failure_links` mutates only failure references and output
lists: the node counter, arena length, and every node's `children`,
`is_end` and `node_id` are identical before and after the call, for every
automaton. -/
theorem build_failure_links_frame (ac : AhoCorasick) :
    (build_failure_links ac).node_counter = ac.node_counter ∧
    (build_failure_links ac).nodes.length = ac.nodes.length ∧
    ∀ j, (getNode (build_failure_links ac).nodes j).children = (getNode ac.nodes j).children ∧
      (getNode (build_failure_links ac).nodes j).is_end = (getNode ac.nodes j).is_end ∧
      (getNode (build_failure_links ac).nodes j).node_id = (getNode ac.nodes j).node_id :=
  ⟨rfl, (sameShape_build ac).1, (sameShape_build ac).2⟩

/-- C1 counterexample: on the automaton holding the single pattern `"a"`,
`add_pattern("")` does not fail; it flips the root's `is_end` flag from
`false` to `true` and appends `""` to the root's output list, contradicting
the claimed `InvalidPattern` rejection. -/
theorem add_pattern_empty_cex :
    (getNode (insertAll ["a"]).nodes 0).is_end = false ∧
    (getNode (add_pattern (insertAll ["a"]) "").nodes 0).is_end = true ∧
    (getNode (add_pattern (insertAll ["a"]) "").nodes 0).output = [""] := by decide

/-- C1 amended: inserting the empty pattern never fails; on every automaton
state it marks the root terminal and appends `""` to the root's output list
(and touches nothing else: counter and arena length are kept). -/
theorem add_pattern_empty_amended (ac : AhoCorasick) (h : 0 < ac.nodes.length) :
    (getNode (add_pattern ac "").nodes 0).is_end = true ∧
    (getNode (add_pattern ac "").nodes 0).output = (getNode ac.nodes 0).output ++ [""] ∧
    (add_pattern ac "").node_counter = ac.node_counter ∧
    (add_pattern ac "").nodes.length = ac.nodes.length := by
  have h0 : (add_pattern ac "").nodes
      = updNode ac.nodes 0 (fun nd =>
          { nd with is_end := true, output := nd.output ++ [""] }) := rfl
  rw [h0, getNode_updNode_self _ h]
  exact ⟨rfl, rfl, rfl, length_updNode _ _ _⟩

theorem add_pattern_empty_amended_witness :
    0 < (insertAll ["he"]).nodes.length ∧
    ((getNode (add_pattern (insertAll ["he"]) "").nodes 0).is_end = true ∧
     (getNode (add_pattern (insertAll ["he"]) "").nodes 0).output
       = (getNode (insertAll ["he"]).nodes 0).output ++ [""] ∧
     (add_pattern (insertAll ["he"]) "").node_counter = (insertAll ["he"]).node_counter ∧
     (add_pattern (insertAll ["he"]) "").nodes.length = (insertAll ["he"]).nodes.length) :=
  ⟨by decide, add_pattern_empty_amended (insertAll ["he"]) (by decide)⟩

/-- C2 counterexample: the code has no `AlreadyBuilt` guard and the second
run of `build_failure_links` is not a no-op: on the automaton built from
`["he", "she"]`, the node for `"she"` (index 5) holds output
`["she", "he"]` after one run but `["she", "he", "he"]` after two. -/
theorem double_build_cex :
    (getNode (buildAutomaton ["he", "she"]).nodes 5).output = ["she", "he"] ∧
    (getNode (build_failure_links (buildAutomaton ["he", "she"])).nodes 5).output
      = ["she", "he", "he"] := by decide

/-- C2 amended: a second `build_failure_links` run is neither rejected nor
idempotent: it recomputes the same failure links but extends each output
list again with its failure target's output, duplicating propagated
entries — shown on the automaton for `["he", "she"]`, where the node
reached by `"she"` ends with output `["she", "he", "he"]`. -/
theorem double_build_amended :
    ((build_failure_links (buildAutomaton ["he", "she"])).nodes.map TrieNode.failure
      = (buildAutomaton ["he", "she"]).nodes.map TrieNode.failure) ∧
    nodeAtPath (buildAutomaton ["he", "she"]) "she" = some 5 ∧
    (getNode (build_failure_links (buildAutomaton ["he", "she"])).nodes 5).output
      = ["she", "he", "he"] := by decide

/-- C3 counterexample: index 99 is no node of the 4-node automaton built
from `["ab", "b"]`, yet `get_path_to_node` does not fail: it returns the
plain string `"UNKNOWN"`. -/
theorem path_foreign_cex :
    (buildAutomaton ["ab", "b"]).nodes.length = 4 ∧
    get_path_to_node (buildAutomaton ["ab", "b"]) 99 = "UNKNOWN" := by decide

/-- C8: after inserting `"he"`, `"she"`, `"his"` in that order and building
failure links, the node reached by `"he"` is terminal with output `["he"]`,
and the node reached by `"she"` has its failure link on the `"he"` node and
output `["she", "he"]`. -/
theorem scenarioA :
    nodeAtPath (buildAutomaton ["he", "she", "his"]) "he" = some 2 ∧
    (getNode (buildAutomaton ["he", "she", "his"]).nodes 2).is_end = true ∧
    (getNode (buildAutomaton ["he", "she", "his"]).nodes 2).output = ["he"] ∧
    nodeAtPath (buildAutomaton ["he", "she", "his"]) "she" = some 5 ∧
    (getNode (buildAutomaton ["he", "she", "his"]).nodes 5).failure = some 2 ∧
    (getNode (buildAutomaton ["he", "she", "his"]).nodes 5).output = ["she", "he"] := by
  decide

/-! ## Well-formed tries

`WFTrie` collects the structural facts that hold for every arena reachable
through `__init__` / `add_pattern`: the root exists, child indices point
forward and into the arena (children are created after their parents),
child keys are distinct per node, every node has at most one parent entry,
and every non-root node has a parent entry. -/

def WFTrie (ns : List TrieNode) : Prop :=
  0 < ns.length ∧
  (∀ i < ns.length, ∀ p ∈ (getNode ns i).children, i < p.2 ∧ p.2 < ns.length) ∧
  (∀ i < ns.length, ((getNode ns i).children.map Prod.fst).Nodup) ∧
  (∀ i₁ < ns.length, ∀ i₂ < ns.length, ∀ p₁ ∈ (getNode ns i₁).children,
     ∀ p₂ ∈ (getNode ns i₂).children, p₁.2 = p₂.2 → i₁ = i₂ ∧ p₁ = p₂) ∧
  (∀ j < ns.length, j ≠ 0 → ∃ i, i < ns.length ∧ ∃ p ∈ (getNode ns i).children, p.2 = j)

theorem childIdx_eq_some {ns : List TrieNode} {i : Nat} {c : Char} {j : Nat}
    (h : childIdx ns i c = some j) : (c, j) ∈ (getNode ns i).children := by
  unfold childIdx at h
  obtain ⟨p, hp, hpj⟩ := Option.map_eq_some'.1 h
  have hmem := List.mem_of_find?_eq_some hp
  have hc := List.find?_some hp
  have : p.1 = c := by simpa using hc
  obtain ⟨p1, p2⟩ := p
  simp only at this hpj
  subst this; subst hpj
  exact hmem

theorem childIdx_eq_none {ns : List TrieNode} {i : Nat} {c : Char} :
    childIdx ns i c = none ↔ ∀ p ∈ (getNode ns i).children, p.1 ≠ c := by
  unfold childIdx
  simp [List.find?_eq_none]

theorem assocFind_of_mem {c : Char} {j : Nat} :
    ∀ {l : List (Char × Nat)}, (l.map Prod.fst).Nodup → (c, j) ∈ l →
      (l.find? (fun p => p.1 == c)).map (fun p => p.2) = some j
  | [], _, h => by simp at h
  | p :: rest, hnd, h => by
      simp only [List.map_cons, List.nodup_cons] at hnd
      rcases List.mem_cons.1 h with h1 | h1
      · subst h1
        simp
      · have hne : ¬(p.1 == c) = true := by
          intro hb
          exact hnd.1 (by
            have hpc : p.1 = c := by simpa using hb
            rw [hpc]
            exact List.mem_map_of_mem Prod.fst h1)
        have hb : (p.1 == c) = false := by simpa using hne
        simp only [List.find?, hb]
        exact assocFind_of_mem hnd.2 h1

theorem childIdx_of_mem {ns : List TrieNode} {i : Nat} {c : Char} {j : Nat}
    (hnd : ((getNode ns i).children.map Prod.fst).Nodup)
    (h : (c, j) ∈ (getNode ns i).children) : childIdx ns i c = some j :=
  assocFind_of_mem hnd h

/-- The arena index of the (in a well-formed trie, unique) parent of `j`:
the first index `i < j` having a child entry pointing at `j`. -/
def parentIdx (ns : List TrieNode) (j : Nat) : Option Nat :=
  (List.range ns.length).find?
    (fun i => decide (i < j) && (getNode ns i).children.any (fun p => p.2 == j))

/-- Depth of a node: its distance from the root along parent entries. -/
def nodeDepth (ns : List TrieNode) (j : Nat) : Nat :=
  match parentIdx ns j with
  | some i => if hlt : i < j then nodeDepth ns i + 1 else 0
  | none => 0
termination_by j
decreasing_by exact hlt

theorem parentIdx_zero (ns : List TrieNode) : parentIdx ns 0 = none := by
  unfold parentIdx
  rw [List.find?_eq_none]
  intro i _
  simp

theorem nodeDepth_zero (ns : List TrieNode) : nodeDepth ns 0 = 0 := by
  rw [nodeDepth, parentIdx_zero]

theorem parentIdx_of_child {ns : List TrieNode} (wf : WFTrie ns) {i j : Nat} {c : Char}
    (hi : i < ns.length) (hp : (c, j) ∈ (getNode ns i).children) :
    parentIdx ns j = some i := by
  have hij : i < j ∧ j < ns.length := wf.2.1 i hi (c, j) hp
  have hex : (parentIdx ns j).isSome := by
    unfold parentIdx
    rw [List.find?_isSome]
    refine ⟨i, List.mem_range.2 hi, ?_⟩
    simp only [Bool.and_eq_true, decide_eq_true_eq, List.any_eq_true]
    exact ⟨hij.1, (c, j), hp, by simp⟩
  obtain ⟨i', hfind⟩ := Option.isSome_iff_exists.1 hex
  have hi' : i' < ns.length := List.mem_range.1 (List.mem_of_find?_eq_some hfind)
  have hpred := List.find?_some hfind
  simp only [Bool.and_eq_true, decide_eq_true_eq, List.any_eq_true] at hpred
  obtain ⟨-, p', hp', hpj'⟩ := hpred
  have hpj' : p'.2 = j := by simpa using hpj'
  have := wf.2.2.2.1 i' hi' i hi p' hp' (c, j) hp (by rw [hpj'])
  rw [hfind, this.1]

theorem nodeDepth_child {ns : List TrieNode} (wf : WFTrie ns) {i j : Nat} {c : Char}
    (hi : i < ns.length) (hp : (c, j) ∈ (getNode ns i).children) :
    nodeDepth ns j = nodeDepth ns i + 1 := by
  have hij : i < j ∧ j < ns.length := wf.2.1 i hi (c, j) hp
  rw [nodeDepth, parentIdx_of_child wf hi hp]
  show (if _ : i < j then nodeDepth ns i + 1 else 0) = nodeDepth ns i + 1
  exact dif_pos hij.1

theorem nodeDepth_pos {ns : List TrieNode} (wf : WFTrie ns) {j : Nat}
    (hj : j < ns.length) (hj0 : j ≠ 0) : 0 < nodeDepth ns j := by
  obtain ⟨i, hi, p, hp, hpj⟩ := wf.2.2.2.2 j hj hj0
  have hp' : (p.1, j) ∈ (getNode ns i).children := by
    rw [← hpj]
    exact hp
  rw [nodeDepth_child wf hi hp']
  exact Nat.succ_pos _

theorem nodeDepth_le_self (ns : List TrieNode) : ∀ j, nodeDepth ns j ≤ j := by
  intro j
  induction j using Nat.strong_induction_on with
  | _ j ih =>
      rw [nodeDepth]
      cases h : parentIdx ns j with
      | none => exact Nat.zero_le _
      | some i =>
          show (if _ : i < j then nodeDepth ns i + 1 else 0) ≤ j
          by_cases hlt : i < j
          · rw [dif_pos hlt]
            exact Nat.succ_le_of_lt (Nat.lt_of_le_of_lt (ih i hlt) hlt)
          · rw [dif_neg hlt]
            exact Nat.zero_le _

theorem parentIdx_congr {ns ns' : List TrieNode} (h : SameShape ns ns') (j : Nat) :
    parentIdx ns' j = parentIdx ns j := by
  unfold parentIdx
  rw [h.1]
  congr 1
  funext i
  rw [(h.2 i).1]

theorem nodeDepth_congr {ns ns' : List TrieNode} (h : SameShape ns ns') :
    ∀ j, nodeDepth ns' j = nodeDepth ns j := by
  intro j
  induction j using Nat.strong_induction_on with
  | _ j ih =>
      rw [nodeDepth, nodeDepth, parentIdx_congr h]
      cases hp : parentIdx ns j with
      | none => rfl
      | some i =>
          show (if _ : i < j then nodeDepth ns' i + 1 else 0)
            = (if _ : i < j then nodeDepth ns i + 1 else 0)
          by_cases hlt : i < j
          · rw [dif_pos hlt, dif_pos hlt, ih i hlt]
          · rw [dif_neg hlt, dif_neg hlt]

/-! ## The insertion phase preserves well-formedness -/

/-- `WFTrie` only depends on the arena length and the child maps. -/
theorem WFTrie_congr {ns ns' : List TrieNode} (hlen : ns'.length = ns.length)
    (hc : ∀ j, (getNode ns' j).children = (getNode ns j).children) :
    WFTrie ns → WFTrie ns' := by
  intro wf
  refine ⟨hlen ▸ wf.1, ?_, ?_, ?_, ?_⟩
  · intro i hi p hp
    rw [hc i] at hp
    rw [hlen] at hi ⊢
    exact wf.2.1 i hi p hp
  · intro i hi
    rw [hc i]
    rw [hlen] at hi
    exact wf.2.2.1 i hi
  · intro i₁ h₁ i₂ h₂ p₁ hp₁ p₂ hp₂ hpp
    rw [hc i₁] at hp₁
    rw [hc i₂] at hp₂
    rw [hlen] at h₁ h₂
    exact wf.2.2.2.1 i₁ h₁ i₂ h₂ p₁ hp₁ p₂ hp₂ hpp
  · intro j hj hj0
    rw [hlen] at hj
    obtain ⟨i, hi, p, hp, hpj⟩ := wf.2.2.2.2 j hj hj0
    exact ⟨i, hlen ▸ hi, p, (hc i).symm ▸ hp, hpj⟩

/-- Adding a fresh node under `node` with a previously absent character
keeps the trie well-formed. -/
theorem extendChild_wf {ns : List TrieNode} {node : Nat} {c : Char} {counter : Nat}
    (wf : WFTrie ns) (hnode : node < ns.length)
    (hc : childIdx ns node c = none) :
    WFTrie (updNode (ns ++ [TrieNode.mkNew counter]) node
      (fun nd => { nd with children := nd.children ++ [(c, ns.length)] })) := by
  set L := ns.length with hL
  set ns2 := updNode (ns ++ [TrieNode.mkNew counter]) node
      (fun nd => { nd with children := nd.children ++ [(c, L)] }) with hns2
  have hlen1 : (ns ++ [TrieNode.mkNew counter]).length = L + 1 := by
    simp [hL]
  have hlen2 : ns2.length = L + 1 := by
    rw [hns2, length_updNode, hlen1]
  have hnode1 : node < (ns ++ [TrieNode.mkNew counter]).length := by
    rw [hlen1]; exact Nat.lt_succ_of_lt hnode
  have hgetnode : getNode ns2 node
      = { getNode ns node with children := (getNode ns node).children ++ [(c, L)] } := by
    rw [hns2, getNode_updNode_self _ hnode1, getNode_append_lt _ hnode]
  have hget_ne : ∀ j, j ≠ node → j < L → getNode ns2 j = getNode ns j := by
    intro j hj hjL
    rw [hns2, getNode_updNode_ne _ (fun hh => hj hh.symm), getNode_append_lt _ hjL]
  have hget_new : node ≠ L → getNode ns2 L = TrieNode.mkNew counter := by
    intro hne
    rw [hns2, getNode_updNode_ne _ hne, hL, getNode_append_self]
  have hnodeL : node ≠ L := Nat.ne_of_lt hnode
  -- children of a node of ns2, described in terms of ns
  have hkids : ∀ j, j < L + 1 →
      (getNode ns2 j).children
        = if j = node then (getNode ns node).children ++ [(c, L)]
          else if j < L then (getNode ns j).children else [] := by
    intro j hj
    by_cases hjn : j = node
    · subst hjn
      rw [if_pos rfl, hgetnode]
    · rw [if_neg hjn]
      by_cases hjL : j < L
      · rw [if_pos hjL, hget_ne j hjn hjL]
      · have hjL' : j = L := by omega
        subst hjL'
        rw [if_neg (by omega), hget_new hnodeL, TrieNode.mkNew]
  refine ⟨by omega, ?_, ?_, ?_, ?_⟩
  · -- bounds
    intro i hi p hp
    rw [hlen2] at hi
    rw [hkids i hi] at hp
    by_cases hin : i = node
    · subst hin
      rw [if_pos rfl] at hp
      rcases List.mem_append.1 hp with h1 | h1
      · have := wf.2.1 i hnode p h1
        omega
      · have : p = (c, L) := by simpa using h1
        subst this
        simp only
        omega
    · rw [if_neg hin] at hp
      by_cases hiL : i < L
      · rw [if_pos hiL] at hp
        have := wf.2.1 i hiL p hp
        omega
      · rw [if_neg hiL] at hp
        simp at hp
  · -- per-node key distinctness
    intro i hi
    rw [hlen2] at hi
    rw [hkids i hi]
    by_cases hin : i = node
    · rw [if_pos hin]
      rw [List.map_append, List.nodup_append]
      refine ⟨wf.2.2.1 node hnode, by simp, ?_⟩
      intro a ha hb
      have hac : a = c := by simpa using hb
      subst hac
      obtain ⟨p, hp, hpc⟩ := List.mem_map.1 ha
      exact (childIdx_eq_none.1 hc p hp) hpc
    · rw [if_neg hin]
      by_cases hiL : i < L
      · rw [if_pos hiL]
        exact wf.2.2.1 i hiL
      · rw [if_neg hiL]
        simp
  · -- unique parent
    intro i₁ h₁ i₂ h₂ p₁ hp₁ p₂ hp₂ hpp
    rw [hlen2] at h₁ h₂
    rw [hkids i₁ h₁] at hp₁
    rw [hkids i₂ h₂] at hp₂
    -- characterize membership in the new child maps
    have hmem : ∀ i, i < L + 1 → ∀ p,
        p ∈ (if i = node then (getNode ns node).children ++ [(c, L)]
          else if i < L then (getNode ns i).children else []) →
        (i < L ∧ p ∈ (getNode ns i).children) ∨ (i = node ∧ p = (c, L)) := by
      intro i hiL1 p hp
      by_cases hin : i = node
      · subst hin
        rw [if_pos rfl] at hp
        rcases List.mem_append.1 hp with h | h
        · exact Or.inl ⟨hnode, h⟩
        · exact Or.inr ⟨rfl, by simpa using h⟩
      · rw [if_neg hin] at hp
        by_cases hiL : i < L
        · rw [if_pos hiL] at hp
          exact Or.inl ⟨hiL, hp⟩
        · rw [if_neg hiL] at hp
          simp at hp
    rcases hmem i₁ h₁ p₁ hp₁ with ⟨hi₁, hm₁⟩ | ⟨hi₁, hm₁⟩ <;>
      rcases hmem i₂ h₂ p₂ hp₂ with ⟨hi₂, hm₂⟩ | ⟨hi₂, hm₂⟩
    · exact wf.2.2.2.1 i₁ hi₁ i₂ hi₂ p₁ hm₁ p₂ hm₂ hpp
    · -- p₂ is the fresh entry, p₁ an old one: impossible since old targets < L
      exfalso
      have := (wf.2.1 i₁ hi₁ p₁ hm₁).2
      rw [hpp, hm₂] at this
      exact Nat.lt_irrefl L this
    · exfalso
      have := (wf.2.1 i₂ hi₂ p₂ hm₂).2
      rw [← hpp, hm₁] at this
      exact Nat.lt_irrefl L this
    · exact ⟨hi₁.trans hi₂.symm, hm₁.trans hm₂.symm⟩
  · -- every non-root node has a parent entry
    intro j hj hj0
    rw [hlen2] at hj
    by_cases hjL : j < L
    · obtain ⟨i, hi, p, hp, hpj⟩ := wf.2.2.2.2 j hjL hj0
      refine ⟨i, by omega, p, ?_, hpj⟩
      have hiL1 : i < L + 1 := by omega
      rw [hkids i hiL1]
      by_cases hin : i = node
      · subst hin
        rw [if_pos rfl]
        exact List.mem_append_left _ hp
      · rw [if_neg hin, if_pos hi]
        exact hp
    · have hjL' : j = L := by omega
      subst hjL'
      refine ⟨node, by omega, (c, L), ?_, rfl⟩
      rw [hkids node (by omega), if_pos rfl]
      exact List.mem_append_right _ (by simp)

/-- Invariants carried by the character walk of `add_pattern`: the trie
stays well-formed, the arena only grows, no failure link is created or
changed (fresh nodes carry `none`), and the root's output list is untouched
as long as the walk does not terminate at the root itself. -/
theorem addPatternGo_inv (pat : String) :
    ∀ (chars : List Char) (ns : List TrieNode) (counter node : Nat),
      WFTrie ns → node < ns.length →
      WFTrie (addPatternGo pat ns counter node chars).1 ∧
      ns.length ≤ (addPatternGo pat ns counter node chars).1.length ∧
      (∀ j < ns.length, (getNode (addPatternGo pat ns counter node chars).1 j).failure
          = (getNode ns j).failure) ∧
      (∀ j, ns.length ≤ j →
          (getNode (addPatternGo pat ns counter node chars).1 j).failure = none) ∧
      (node ≠ 0 ∨ chars ≠ [] →
          (getNode (addPatternGo pat ns counter node chars).1 0).output
            = (getNode ns 0).output)
  | [], ns, counter, node, wf, hnode => by
      simp only [addPatternGo]
      have hch : ∀ j, (getNode (updNode ns node (fun nd =>
          { nd with is_end := true, output := nd.output ++ [pat] })) j).children
          = (getNode ns j).children := by
        intro j
        by_cases hj : j = node
        · subst hj
          rw [getNode_updNode_self _ hnode]
        · rw [getNode_updNode_ne _ (fun hh => hj hh.symm)]
      have hfail : ∀ j, (getNode (updNode ns node (fun nd =>
          { nd with is_end := true, output := nd.output ++ [pat] })) j).failure
          = (getNode ns j).failure := by
        intro j
        by_cases hj : j = node
        · subst hj
          rw [getNode_updNode_self _ hnode]
        · rw [getNode_updNode_ne _ (fun hh => hj hh.symm)]
      refine ⟨WFTrie_congr (length_updNode ns node _) hch wf, ?_, ?_, ?_, ?_⟩
      · rw [length_updNode]
      · exact fun j _ => hfail j
      · intro j hj
        rw [hfail j]
        have : ns.length ≤ j := hj
        rw [getNode_big this]
        rfl
      · intro hcond
        rcases hcond with hn0 | habs
        · rw [getNode_updNode_ne _ hn0]
        · exact absurd rfl habs
  | c :: rest, ns, counter, node, wf, hnode => by
      cases hci : childIdx ns node c with
      | some j =>
          simp only [addPatternGo, hci]
          have hmem := childIdx_eq_some hci
          have hj := wf.2.1 node hnode (c, j) hmem
          have ih := addPatternGo_inv pat rest ns counter j wf hj.2
          refine ⟨ih.1, ih.2.1, ih.2.2.1, ih.2.2.2.1, ?_⟩
          intro _
          exact ih.2.2.2.2 (Or.inl (by omega))
      | none =>
          simp only [addPatternGo, hci]
          set L := ns.length with hL
          set ns2 := updNode (ns ++ [TrieNode.mkNew counter]) node
              (fun nd => { nd with children := nd.children ++ [(c, L)] }) with hns2
          have wf2 : WFTrie ns2 := extendChild_wf wf hnode hci
          have hlen2 : ns2.length = L + 1 := by
            rw [hns2, length_updNode]
            simp [hL]
          have hnode1 : node < (ns ++ [TrieNode.mkNew counter]).length := by
            simp only [List.length_append, List.length_singleton]
            omega
          have hfail2 : ∀ j, j < L → (getNode ns2 j).failure = (getNode ns j).failure := by
            intro j hjL
            by_cases hj : j = node
            · subst hj
              rw [hns2, getNode_updNode_self _ hnode1, getNode_append_lt _ hjL]
            · rw [hns2, getNode_updNode_ne _ (fun hh => hj hh.symm),
                getNode_append_lt _ hjL]
          have hfailL : (getNode ns2 L).failure = none := by
            rw [hns2, getNode_updNode_ne _ (Nat.ne_of_lt hnode), hL, getNode_append_self]
            rfl
          have hout2 : (getNode ns2 0).output = (getNode ns 0).output := by
            by_cases hn0 : node = 0
            · subst hn0
              rw [hns2, getNode_updNode_self _ hnode1,
                getNode_append_lt _ (by omega : (0:Nat) < ns.length)]
            · rw [hns2, getNode_updNode_ne _ hn0,
                getNode_append_lt _ (by omega : (0:Nat) < ns.length)]
          have hLlt2 : L < ns2.length := by omega
          have ih := addPatternGo_inv pat rest ns2 (counter + 1) L wf2 hLlt2
          refine ⟨ih.1, ?_, ?_, ?_, ?_⟩
          · have := ih.2.1
            omega
          · intro j hj
            have hjL : j < L := hj
            rw [ih.2.2.1 j (by omega), hfail2 j hjL]
          · intro j hj
            rcases Nat.lt_or_ge j (L + 1) with hj1 | hj1
            · have hjL : j = L := by omega
              rw [hjL, ih.2.2.1 L (by omega), hfailL]
            · exact ih.2.2.2.1 j (by omega)
          · intro _
            have hL0 : L ≠ 0 := by
              have := wf.1
              omega
            rw [ih.2.2.2.2 (Or.inl hL0), hout2]

/-- The state of every automaton after `__init__` and any sequence of
`add_pattern` calls, before failure-link construction: a well-formed trie
whose root failure is the root itself and all of whose other failure links
are still unassigned (`None`). -/
def PreAuto (ac : AhoCorasick) : Prop :=
  WFTrie ac.nodes ∧
  (getNode ac.nodes 0).failure = some 0 ∧
  (∀ j < ac.nodes.length, j ≠ 0 → (getNode ac.nodes j).failure = none)

theorem preAuto_initial : PreAuto AhoCorasick.initial := by
  refine ⟨⟨by simp [AhoCorasick.initial], ?_, ?_, ?_, ?_⟩, rfl, ?_⟩
  · intro i hi p hp
    simp only [AhoCorasick.initial, List.length_singleton] at hi
    have : i = 0 := by omega
    subst this
    simp [getNode, AhoCorasick.initial] at hp
  · intro i hi
    simp only [AhoCorasick.initial, List.length_singleton] at hi
    have : i = 0 := by omega
    subst this
    simp [getNode, AhoCorasick.initial]
  · intro i₁ h₁ i₂ h₂ p₁ hp₁ p₂ hp₂ hpp
    simp only [AhoCorasick.initial, List.length_singleton] at h₁
    have : i₁ = 0 := by omega
    subst this
    simp [getNode, AhoCorasick.initial] at hp₁
  · intro j hj hj0
    simp only [AhoCorasick.initial, List.length_singleton] at hj
    omega
  · intro j hj hj0
    simp only [AhoCorasick.initial, List.length_singleton] at hj
    omega

theorem add_pattern_pre {ac : AhoCorasick} (h : PreAuto ac) (pat : String) :
    PreAuto (add_pattern ac pat) := by
  have inv := addPatternGo_inv pat pat.toList ac.nodes ac.node_counter 0 h.1 h.1.1
  refine ⟨inv.1, ?_, ?_⟩
  · rw [show (add_pattern ac pat).nodes
        = (addPatternGo pat ac.nodes ac.node_counter 0 pat.toList).1 from rfl]
    rw [inv.2.2.1 0 h.1.1]
    exact h.2.1
  · intro j hj hj0
    rw [show (add_pattern ac pat).nodes
        = (addPatternGo pat ac.nodes ac.node_counter 0 pat.toList).1 from rfl] at hj ⊢
    rcases Nat.lt_or_ge j ac.nodes.length with hlt | hge
    · rw [inv.2.2.1 j hlt]
      exact h.2.2 j hlt hj0
    · exact inv.2.2.2.1 j hge

theorem add_pattern_rootOutput {ac : AhoCorasick} (h : PreAuto ac) {pat : String}
    (hpat : pat ≠ "") :
    (getNode (add_pattern ac pat).nodes 0).output = (getNode ac.nodes 0).output := by
  have inv := addPatternGo_inv pat pat.toList ac.nodes ac.node_counter 0 h.1 h.1.1
  refine inv.2.2.2.2 (Or.inr ?_)
  intro habs
  exact hpat (by
    cases pat with
    | mk l =>
        simp only [String.toList] at habs
        simp [habs])

theorem insertAll_pre_aux :
    ∀ (ps : List String) (ac : AhoCorasick), PreAuto ac →
      PreAuto (ps.foldl add_pattern ac) ∧
      ((∀ p ∈ ps, p ≠ "") →
        (getNode (ps.foldl add_pattern ac).nodes 0).output = (getNode ac.nodes 0).output)
  | [], ac, h => ⟨h, fun _ => rfl⟩
  | p :: rest, ac, h => by
      have h1 := add_pattern_pre h p
      have ih := insertAll_pre_aux rest (add_pattern ac p) h1
      refine ⟨ih.1, fun hne => ?_⟩
      rw [List.foldl_cons, ih.2 (fun q hq => hne q (List.mem_cons_of_mem p hq)),
        add_pattern_rootOutput h (hne p (List.mem_cons_self p rest))]

theorem insertAll_pre (ps : List String) : PreAuto (insertAll ps) :=
  (insertAll_pre_aux ps AhoCorasick.initial preAuto_initial).1

theorem insertAll_rootOutput {ps : List String} (h : ∀ p ∈ ps, p ≠ "") :
    (getNode (insertAll ps).nodes 0).output = [] := by
  rw [show insertAll ps = ps.foldl add_pattern AhoCorasick.initial from rfl,
    (insertAll_pre_aux ps AhoCorasick.initial preAuto_initial).2 h]
  rfl

/-! ## The BFS invariant

The state of the `while queue:` loop of `build_failure_links` is the arena
plus the queue.  During the first run on a freshly inserted trie a node has
an assigned (`some`) failure link exactly when the BFS has reached it
("touched": the root from `__init__`, depth-1 nodes from the
initialization loop, deeper nodes when their parent was dequeued), which
lets the invariant speak about the BFS frontier purely in terms of the
arena. -/

structure InvS (ns : List TrieNode) (q : List Nat) : Prop where
  wf : WFTrie ns
  rootFail : (getNode ns 0).failure = some 0
  rootNotQ : 0 ∉ q
  failSpec : ∀ j < ns.length, j ≠ 0 → ∀ f, (getNode ns j).failure = some f →
    f < ns.length ∧ f ≠ j ∧ nodeDepth ns f < nodeDepth ns j ∧
      ((getNode ns f).failure).isSome = true
  doneKidsTouched : ∀ j < ns.length, ((getNode ns j).failure).isSome = true → j ∉ q →
    ∀ p ∈ (getNode ns j).children, ((getNode ns p.2).failure).isSome = true
  parentDone : ∀ j < ns.length, j ≠ 0 → ((getNode ns j).failure).isSome = true →
    ∀ i < ns.length, ∀ p ∈ (getNode ns i).children, p.2 = j →
      ((getNode ns i).failure).isSome = true ∧ i ∉ q
  nodupQ : q.Nodup
  qElems : ∀ x ∈ q, x < ns.length ∧ x ≠ 0 ∧ ((getNode ns x).failure).isSome = true
  sortedQ : List.Pairwise (fun x y => nodeDepth ns x ≤ nodeDepth ns y ∧
    nodeDepth ns y ≤ nodeDepth ns x + 1) q
  untouchedDeep : ∀ j < ns.length, ((getNode ns j).failure).isSome = false →
    ∀ x ∈ q, nodeDepth ns x ≤ nodeDepth ns j

/-- Output-propagation overlay of the BFS invariant: every touched
non-root node's output already contains its failure target's output. -/
def InvO (ns : List TrieNode) : Prop :=
  ∀ j < ns.length, j ≠ 0 → ∀ f, (getNode ns j).failure = some f →
    ∀ s ∈ (getNode ns f).output, s ∈ (getNode ns j).output

/-- In a well-formed trie the child indices of a single node are pairwise
distinct. -/
theorem kidsValuesNodup {ns : List TrieNode} (wf : WFTrie ns) {i : Nat}
    (hi : i < ns.length) : ((getNode ns i).children.map Prod.snd).Nodup := by
  have hkeys := wf.2.2.1 i hi
  have hpairs : (getNode ns i).children.Nodup := List.Nodup.of_map _ hkeys
  refine List.Nodup.map_on ?_ hpairs
  intro p hp q hq hpq
  exact ((wf.2.2.2.1 i hi i hi p hp q hq hpq).2)

theorem childIdx_congr {ns ns' : List TrieNode} (h : SameShape ns ns') (i : Nat) (c : Char) :
    childIdx ns' i c = childIdx ns i c := by
  unfold childIdx
  rw [(h.2 i).1]

/-- The head of the queue: basic facts. -/
theorem InvS.currentFacts {ns : List TrieNode} {current : Nat} {rest : List Nat}
    (inv : InvS ns (current :: rest)) :
    current < ns.length ∧ current ≠ 0 ∧ ((getNode ns current).failure).isSome = true :=
  inv.qElems current (List.mem_cons_self current rest)

/-- Every node strictly shallower than the dequeued node is already fully
processed: touched and no longer queued. -/
theorem InvS.shallowDone {ns : List TrieNode} {current : Nat} {rest : List Nat}
    (inv : InvS ns (current :: rest)) :
    ∀ j < ns.length, nodeDepth ns j < nodeDepth ns current →
      ((getNode ns j).failure).isSome = true ∧ j ∉ current :: rest := by
  intro j hj hdep
  constructor
  · by_cases ht : ((getNode ns j).failure).isSome = true
    · exact ht
    · have hf : ((getNode ns j).failure).isSome = false := by
        simpa using ht
      have := inv.untouchedDeep j hj hf current (List.mem_cons_self current rest)
      omega
  · intro hmem
    rcases List.mem_cons.1 hmem with h1 | h1
    · subst h1
      omega
    · have := (List.pairwise_cons.1 inv.sortedQ).1 j h1
      omega

/-- Queue elements sit in the two-level window of the head. -/
theorem InvS.windowQ {ns : List TrieNode} {current : Nat} {rest : List Nat}
    (inv : InvS ns (current :: rest)) :
    ∀ x ∈ rest, nodeDepth ns current ≤ nodeDepth ns x ∧
      nodeDepth ns x ≤ nodeDepth ns current + 1 :=
  (List.pairwise_cons.1 inv.sortedQ).1

/-- The children of the node being dequeued are still untouched. -/
theorem InvS.kidUntouched {ns : List TrieNode} {current : Nat} {rest : List Nat}
    (inv : InvS ns (current :: rest)) :
    ∀ p ∈ (getNode ns current).children, ((getNode ns p.2).failure).isSome = false := by
  intro p hp
  have hcur := inv.currentFacts
  have hbound := inv.wf.2.1 current hcur.1 p hp
  by_cases ht : ((getNode ns p.2).failure).isSome = true
  · exfalso
    have := inv.parentDone p.2 hbound.2 (by omega) ht current hcur.1 p hp rfl
    exact this.2 (List.mem_cons_self current rest)
  · simpa using ht

/-- Children of the dequeued node sit exactly one level deeper. -/
theorem kidDepth {ns : List TrieNode} (wf : WFTrie ns) {current : Nat}
    (hcur : current < ns.length) {j : Nat}
    (hj : j ∈ (getNode ns current).children.map Prod.snd) :
    nodeDepth ns j = nodeDepth ns current + 1 := by
  obtain ⟨p, hp, hpj⟩ := List.mem_map.1 hj
  have : (p.1, j) ∈ (getNode ns current).children := by
    rw [← hpj]
    exact hp
  exact nodeDepth_child wf hcur this

/-- The inner while loop of `build_failure_links`, run from a touched node
strictly shallower than the dequeued node, stays on touched, ever
shallower, already processed nodes, and stops at the root or at a node
with a `c`-transition.  The loop runs on the mid-iteration arena `ns`, but
all nodes it can visit lie outside the dequeued node's child set and hence
agree with the dequeue-time arena `ns₀`. -/
theorem chainLemma {ns₀ : List TrieNode} {current : Nat} {rest : List Nat}
    (inv : InvS ns₀ (current :: rest)) {ns : List TrieNode} {c : Char}
    (hShape : SameShape ns₀ ns)
    (hM2 : ∀ j, j ∉ (getNode ns₀ current).children.map Prod.snd →
      getNode ns j = getNode ns₀ j) :
    ∀ (fuel cand : Nat), cand < ns₀.length →
      ((getNode ns₀ cand).failure).isSome = true →
      nodeDepth ns₀ cand < nodeDepth ns₀ current →
      nodeDepth ns₀ cand + 1 ≤ fuel →
      findFailureNode ns c fuel cand < ns₀.length ∧
      nodeDepth ns₀ (findFailureNode ns c fuel cand) ≤ nodeDepth ns₀ cand ∧
      ((getNode ns₀ (findFailureNode ns c fuel cand)).failure).isSome = true ∧
      (findFailureNode ns c fuel cand = 0 ∨
        childIdx ns₀ (findFailureNode ns c fuel cand) c ≠ none) := by
  intro fuel
  induction fuel with
  | zero =>
      intro cand _ _ _ hfuel
      omega
  | succ fuel ih =>
      intro cand hlt htouch hdep hfuel
      have hcur := inv.currentFacts
      have hnotkid : cand ∉ (getNode ns₀ current).children.map Prod.snd := by
        intro hmem
        have := kidDepth inv.wf hcur.1 hmem
        omega
      have hget : getNode ns cand = getNode ns₀ cand := hM2 cand hnotkid
      rw [findFailureNode]
      by_cases hcond : cand ≠ 0 ∧ childIdx ns cand c = none
      · rw [if_pos hcond]
        obtain ⟨f, hf⟩ := Option.isSome_iff_exists.1 htouch
        rw [hget, hf]
        have hmatch : (match some f with
            | some f => findFailureNode ns c fuel f
            | none => cand) = findFailureNode ns c fuel f := rfl
        rw [hmatch]
        have hspec := inv.failSpec cand hlt hcond.1 f hf
        have h2 := hspec.2.2.1
        have hres := ih f hspec.1 hspec.2.2.2 (by omega) (by omega)
        have h1 := hres.2.1
        exact ⟨hres.1, by omega, hres.2.2.1, hres.2.2.2⟩
      · rw [if_neg hcond]
        refine ⟨hlt, Nat.le_refl _, htouch, ?_⟩
        rw [Decidable.not_and_iff_or_not] at hcond
        rcases hcond with h1 | h1
        · exact Or.inl (by simpa using h1)
        · right
          rw [← childIdx_congr hShape]
          exact h1

/-- What one iteration of the child loop establishes for the processed
child `t`: its failure link is assigned to a strictly shallower, touched,
distinct node outside the dequeued node's child set, and its output list
becomes its old output extended by the failure target's dequeue-time
output. -/
def PFact (ns₀ nsf : List TrieNode) (current t : Nat) : Prop :=
  ∃ tgt, (getNode nsf t).failure = some tgt ∧ tgt < ns₀.length ∧ tgt ≠ t ∧
    tgt ∉ (getNode ns₀ current).children.map Prod.snd ∧
    nodeDepth ns₀ tgt < nodeDepth ns₀ t ∧
    ((getNode ns₀ tgt).failure).isSome = true ∧
    (getNode nsf t).output = (getNode ns₀ t).output ++ (getNode ns₀ tgt).output

/-- Unfolding of `setChildFailure` once the dequeued node's failure link
and the loop's outcome are known. -/
theorem setChildFailure_result {ns : List TrieNode} {current child : Nat} {c : Char}
    {f₀ : Nat} (hf : (getNode ns current).failure = some f₀) (hchild : child < ns.length)
    {tgt : Nat}
    (htgt : (match childIdx ns (findFailureNode ns c ns.length f₀) c with
      | some t => if t ≠ child then t else 0
      | none => 0) = tgt)
    (hne : tgt ≠ child) :
    (∀ j, j ≠ child → getNode (setChildFailure ns current child c) j = getNode ns j) ∧
    (getNode (setChildFailure ns current child c) child).failure = some tgt ∧
    (getNode (setChildFailure ns current child c) child).output
      = (getNode ns child).output ++ (getNode ns tgt).output ∧
    (getNode (setChildFailure ns current child c) child).children
      = (getNode ns child).children ∧
    (getNode (setChildFailure ns current child c) child).is_end
      = (getNode ns child).is_end := by
  have hrw : setChildFailure ns current child c
      = updNode (updNode ns child (fun nd => { nd with failure := some tgt })) child
        (fun nd => { nd with output := nd.output
          ++ (getNode (updNode ns child (fun nd => { nd with failure := some tgt })) tgt).output }) := by
    unfold setChildFailure
    rw [hf]
    simp only [Option.getD_some, htgt]
  have hlen1 : child < (updNode ns child
      (fun nd => { nd with failure := some tgt })).length := by
    rw [length_updNode]
    exact hchild
  have hstep1 : getNode (updNode ns child (fun nd => { nd with failure := some tgt })) child
      = { getNode ns child with failure := some tgt } := getNode_updNode_self _ hchild
  have hstep2 : getNode (updNode ns child (fun nd => { nd with failure := some tgt })) tgt
      = getNode ns tgt := getNode_updNode_ne _ (fun hh => hne hh.symm)
  constructor
  · intro j hj
    rw [hrw, getNode_updNode_ne _ (fun hh => hj hh.symm),
      getNode_updNode_ne _ (fun hh => hj hh.symm)]
  · rw [hrw, getNode_updNode_self _ hlen1, hstep1, hstep2]
    exact ⟨rfl, rfl, rfl, rfl⟩

/-- One iteration of the `for char, child in current.children.items()` loop,
on the mid-iteration arena: locality plus `PFact` for the processed child. -/
theorem setChildFailure_spec {ns₀ : List TrieNode} {current : Nat} {rest : List Nat}
    (inv : InvS ns₀ (current :: rest)) {ns : List TrieNode} {c : Char} {t : Nat}
    (hShape : SameShape ns₀ ns)
    (hM2 : ∀ j, j ∉ (getNode ns₀ current).children.map Prod.snd →
      getNode ns j = getNode ns₀ j)
    (hT : getNode ns t = getNode ns₀ t)
    (hmem : (c, t) ∈ (getNode ns₀ current).children) :
    (∀ j, j ≠ t → getNode (setChildFailure ns current t c) j = getNode ns j) ∧
    PFact ns₀ (setChildFailure ns current t c) current t ∧
    SameShape ns₀ (setChildFailure ns current t c) := by
  have hcur := inv.currentFacts
  have hb := inv.wf.2.1 current hcur.1 (c, t) hmem
  have htkid : t ∈ (getNode ns₀ current).children.map Prod.snd :=
    List.mem_map.2 ⟨(c, t), hmem, rfl⟩
  have hdeptht : nodeDepth ns₀ t = nodeDepth ns₀ current + 1 :=
    nodeDepth_child inv.wf hcur.1 hmem
  have hcurnotkid : current ∉ (getNode ns₀ current).children.map Prod.snd := by
    intro hc
    obtain ⟨p, hp, hpc⟩ := List.mem_map.1 hc
    have := inv.wf.2.1 current hcur.1 p hp
    omega
  have hgetcur : getNode ns current = getNode ns₀ current := hM2 current hcurnotkid
  obtain ⟨f₀, hf₀⟩ := Option.isSome_iff_exists.1 hcur.2.2
  have hf₀' : (getNode ns current).failure = some f₀ := by rw [hgetcur, hf₀]
  have hspec₀ := inv.failSpec current hcur.1 hcur.2.1 f₀ hf₀
  have hlen : ns.length = ns₀.length := hShape.1
  have hfuel : nodeDepth ns₀ f₀ + 1 ≤ ns.length := by
    have h1 := nodeDepth_le_self ns₀ f₀
    omega
  have hchain := @chainLemma ns₀ current rest inv ns c hShape hM2 ns.length f₀
    hspec₀.1 hspec₀.2.2.2 hspec₀.2.2.1 hfuel
  set r := findFailureNode ns c ns.length f₀ with hr
  have hrdeep : nodeDepth ns₀ r < nodeDepth ns₀ current := by
    have := hchain.2.1
    have := hspec₀.2.2.1
    omega
  have hrdone := inv.shallowDone r hchain.1 hrdeep
  have htun := inv.kidUntouched (c, t) hmem
  -- compute the assigned failure target
  have hci : childIdx ns r c = childIdx ns₀ r c := childIdx_congr hShape r c
  cases hcix : childIdx ns₀ r c with
  | some tv =>
      have hmem' := childIdx_eq_some hcix
      have hbtv := inv.wf.2.1 r hchain.1 (c, tv) hmem'
      have htvtouch : ((getNode ns₀ tv).failure).isSome = true :=
        inv.doneKidsTouched r hchain.1 hchain.2.2.1 hrdone.2 (c, tv) hmem'
      have htvt : tv ≠ t := by
        intro hh
        rw [hh] at htvtouch
        rw [htun] at htvtouch
        exact Bool.false_ne_true htvtouch
      have htvdepth : nodeDepth ns₀ tv = nodeDepth ns₀ r + 1 :=
        nodeDepth_child inv.wf hchain.1 hmem'
      have htvnotkid : tv ∉ (getNode ns₀ current).children.map Prod.snd := by
        intro hc
        obtain ⟨p, hp, hpc⟩ := List.mem_map.1 hc
        have := inv.wf.2.2.2.1 r hchain.1 current hcur.1 (c, tv) hmem' p hp hpc.symm
        rw [this.1] at hrdeep
        omega
      have htgt : (match childIdx ns r c with
          | some u => if u ≠ t then u else 0
          | none => 0) = tv := by
        rw [hci, hcix]
        show (if tv ≠ t then tv else 0) = tv
        exact if_pos htvt
      have hres := setChildFailure_result hf₀' (by omega) htgt htvt
      refine ⟨hres.1, ⟨tv, ?_⟩, ?_⟩
      · refine ⟨hres.2.1, by omega, htvt, htvnotkid, by omega, htvtouch, ?_⟩
        rw [hres.2.2.1, hT, hM2 tv htvnotkid]
      · exact hShape.trans (sameShape_setChildFailure ns current t c)
  | none =>
      have hr0 : r = 0 := by
        rcases hchain.2.2.2 with h1 | h1
        · exact h1
        · exact absurd hcix h1
      have h0t : (0 : Nat) ≠ t := by omega
      have h0notkid : (0 : Nat) ∉ (getNode ns₀ current).children.map Prod.snd := by
        intro hc
        obtain ⟨p, hp, hpc⟩ := List.mem_map.1 hc
        have := inv.wf.2.1 current hcur.1 p hp
        omega
      have htgt : (match childIdx ns r c with
          | some u => if u ≠ t then u else 0
          | none => 0) = 0 := by
        rw [hci, hcix]
      have hres := setChildFailure_result hf₀' (by omega) htgt h0t
      refine ⟨hres.1, ⟨0, ?_⟩, ?_⟩
      · refine ⟨hres.2.1, by omega, h0t, h0notkid, ?_, ?_, ?_⟩
        · rw [nodeDepth_zero]
          omega
        · rw [inv.rootFail]
          rfl
        · rw [hres.2.2.1, hT, hM2 0 h0notkid]
      · exact hShape.trans (sameShape_setChildFailure ns current t c)

/-- Folding the child loop over a suffix of the dequeued node's children:
locality outside the processed children, and `PFact` for each of them. -/
theorem processKids_spec {ns₀ : List TrieNode} {current : Nat} {rest : List Nat}
    (inv : InvS ns₀ (current :: rest)) :
    ∀ (todo : List (Char × Nat)) (ns : List TrieNode),
      SameShape ns₀ ns →
      (∀ j, j ∉ (getNode ns₀ current).children.map Prod.snd →
        getNode ns j = getNode ns₀ j) →
      (∀ p ∈ todo, getNode ns p.2 = getNode ns₀ p.2) →
      (∀ p ∈ todo, p ∈ (getNode ns₀ current).children) →
      (todo.map Prod.snd).Nodup →
      (∀ j, j ∉ todo.map Prod.snd →
        getNode (processKids current ns todo) j = getNode ns j) ∧
      (∀ p ∈ todo, PFact ns₀ (processKids current ns todo) current p.2) ∧
      SameShape ns₀ (processKids current ns todo)
  | [], ns, hShape, _, _, _, _ => by
      exact ⟨fun j _ => rfl, fun p hp => absurd hp (List.not_mem_nil p), hShape⟩
  | (c, t) :: todo, ns, hShape, hM2, htodo, hsub, hnd => by
      have hmem : (c, t) ∈ (getNode ns₀ current).children :=
        hsub (c, t) (List.mem_cons_self _ _)
      have hT : getNode ns t = getNode ns₀ t := htodo (c, t) (List.mem_cons_self _ _)
      have hstep := setChildFailure_spec inv hShape hM2 hT hmem
      have hndt : t ∉ todo.map Prod.snd := by
        have := hnd
        simp only [List.map_cons, List.nodup_cons] at this
        exact this.1
      have hnd' : (todo.map Prod.snd).Nodup := by
        have := hnd
        simp only [List.map_cons, List.nodup_cons] at this
        exact this.2
      have hM2' : ∀ j, j ∉ (getNode ns₀ current).children.map Prod.snd →
          getNode (setChildFailure ns current t c) j = getNode ns₀ j := by
        intro j hj
        have hjt : j ≠ t := by
          intro hh
          rw [hh] at hj
          exact hj (List.mem_map.2 ⟨(c, t), hmem, rfl⟩)
        rw [hstep.1 j hjt]
        exact hM2 j hj
      have htodo' : ∀ p ∈ todo, getNode (setChildFailure ns current t c) p.2
          = getNode ns₀ p.2 := by
        intro p hp
        have hpt : p.2 ≠ t := by
          intro hh
          rw [← hh] at hndt
          exact hndt (List.mem_map.2 ⟨p, hp, rfl⟩)
        rw [hstep.1 p.2 hpt]
        exact htodo p (List.mem_cons_of_mem _ hp)
      have hsub' : ∀ p ∈ todo, p ∈ (getNode ns₀ current).children :=
        fun p hp => hsub p (List.mem_cons_of_mem _ hp)
      have ih := processKids_spec inv todo (setChildFailure ns current t c)
        hstep.2.2 hM2' htodo' hsub' hnd'
      rw [show processKids current ns ((c, t) :: todo)
          = processKids current (setChildFailure ns current t c) todo from rfl]
      refine ⟨?_, ?_, ih.2.2⟩
      · intro j hj
        have hjt : j ≠ t := by
          intro hh
          exact hj (by rw [hh]; exact List.mem_cons_self _ _)
        have hjtodo : j ∉ todo.map Prod.snd := by
          intro hh
          exact hj (List.mem_cons_of_mem _ hh)
        rw [ih.1 j hjtodo, hstep.1 j hjt]
      · intro p hp
        rcases List.mem_cons.1 hp with h1 | h1
        · -- the just-processed child: its PFact survives the later siblings
          have hpt : p.2 = t := by rw [h1]
          rw [hpt]
          obtain ⟨tgt, htgt⟩ := hstep.2.1
          refine ⟨tgt, ?_, htgt.2.1, htgt.2.2.1, htgt.2.2.2.1, htgt.2.2.2.2.1,
            htgt.2.2.2.2.2.1, ?_⟩
          · rw [ih.1 t hndt]
            exact htgt.1
          · rw [ih.1 t hndt]
            exact htgt.2.2.2.2.2.2
        · exact ih.2.1 p h1

/-- All members of a list at a common depth are pairwise within the
two-level window. -/
theorem pairwise_window_of_const {g : Nat → Nat} {v : Nat} :
    ∀ {l : List Nat}, (∀ x ∈ l, g x = v) →
      l.Pairwise (fun x y => g x ≤ g y ∧ g y ≤ g x + 1)
  | [], _ => List.Pairwise.nil
  | a :: l, h => by
      refine List.pairwise_cons.2 ⟨?_, pairwise_window_of_const
        (fun x hx => h x (List.mem_cons_of_mem a hx))⟩
      intro y hy
      rw [h a (List.mem_cons_self a l), h y (List.mem_cons_of_mem a hy)]
      omega

/-- Number of fully processed nodes: touched and no longer queued.  Strictly
grows with every dequeue, bounding the number of BFS iterations. -/
def doneCount (ns : List TrieNode) (q : List Nat) : Nat :=
  ((Finset.range ns.length).filter
    (fun j => ((getNode ns j).failure).isSome = true ∧ j ∉ q)).card

/-- One dequeue step of the BFS preserves the structural invariant and the
output overlay, and strictly increases the processed count. -/
theorem bfs_step {ns₀ : List TrieNode} {current : Nat} {rest : List Nat}
    (inv : InvS ns₀ (current :: rest)) :
    InvS (processKids current ns₀ (getNode ns₀ current).children)
      (rest ++ ((getNode ns₀ current).children.map (fun p => p.2))) ∧
    (InvO ns₀ → InvO (processKids current ns₀ (getNode ns₀ current).children)) ∧
    doneCount ns₀ (current :: rest)
      < doneCount (processKids current ns₀ (getNode ns₀ current).children)
        (rest ++ ((getNode ns₀ current).children.map (fun p => p.2))) := by
  have hcur := inv.currentFacts
  set kids := (getNode ns₀ current).children with hkids
  set nsf := processKids current ns₀ kids with hnsf
  have hPK := processKids_spec inv kids ns₀ (sameShape_refl ns₀)
    (fun _ _ => rfl) (fun _ _ => rfl) (fun _ hp => hp)
    (kidsValuesNodup inv.wf hcur.1)
  have hM2f : ∀ j, j ∉ kids.map Prod.snd → getNode nsf j = getNode ns₀ j := hPK.1
  have hPF : ∀ p ∈ kids, PFact ns₀ nsf current p.2 := hPK.2.1
  have hShapef : SameShape ns₀ nsf := hPK.2.2
  have hlenf : nsf.length = ns₀.length := hShapef.1
  have hdc : ∀ j, nodeDepth nsf j = nodeDepth ns₀ j := nodeDepth_congr hShapef
  have hkidmem : ∀ j ∈ kids.map Prod.snd, ∃ p ∈ kids, p.2 = j := by
    intro j hj
    obtain ⟨p, hp, hpj⟩ := List.mem_map.1 hj
    exact ⟨p, hp, hpj⟩
  have hkidbound : ∀ j ∈ kids.map Prod.snd, current < j ∧ j < ns₀.length := by
    intro j hj
    obtain ⟨p, hp, hpj⟩ := hkidmem j hj
    have := inv.wf.2.1 current hcur.1 p hp
    omega
  have hkiddepth : ∀ j ∈ kids.map Prod.snd,
      nodeDepth ns₀ j = nodeDepth ns₀ current + 1 :=
    fun j hj => kidDepth inv.wf hcur.1 hj
  have hkiduntouched₀ : ∀ j ∈ kids.map Prod.snd,
      ((getNode ns₀ j).failure).isSome = false := by
    intro j hj
    obtain ⟨p, hp, hpj⟩ := hkidmem j hj
    rw [← hpj]
    exact inv.kidUntouched p hp
  have htouchf : ∀ j, ((getNode ns₀ j).failure).isSome = true →
      ((getNode nsf j).failure).isSome = true := by
    intro j ht
    have hnk : j ∉ kids.map Prod.snd := by
      intro hk
      rw [hkiduntouched₀ j hk] at ht
      exact Bool.false_ne_true ht
    rw [hM2f j hnk]
    exact ht
  have hkidtouchf : ∀ j ∈ kids.map Prod.snd,
      ((getNode nsf j).failure).isSome = true := by
    intro j hj
    obtain ⟨p, hp, hpj⟩ := hkidmem j hj
    obtain ⟨tgt, htgt⟩ := hPF p hp
    rw [← hpj, htgt.1]
    rfl
  have hcurnotkid : current ∉ kids.map Prod.snd := by
    intro hc
    have := hkidbound current hc
    omega
  have hrootnotkid : (0 : Nat) ∉ kids.map Prod.snd := by
    intro hc
    have := hkidbound 0 hc
    omega
  have hcurnotrest : current ∉ rest := (List.nodup_cons.1 inv.nodupQ).1
  have hrestnodup : rest.Nodup := (List.nodup_cons.1 inv.nodupQ).2
  have hchildf : ∀ j, (getNode nsf j).children = (getNode ns₀ j).children :=
    fun j => (hShapef.2 j).1
  refine ⟨⟨?_, ?_, ?_, ?_, ?_, ?_, ?_, ?_, ?_, ?_⟩, ?_, ?_⟩
  · exact WFTrie_congr hlenf hchildf inv.wf
  · rw [hM2f 0 hrootnotkid]
    exact inv.rootFail
  · intro hmem
    rcases List.mem_append.1 hmem with h | h
    · exact inv.rootNotQ (List.mem_cons_of_mem _ h)
    · exact hrootnotkid h
  · -- failSpec
    intro j hj hj0 f hf
    rw [hlenf] at hj
    by_cases hk : j ∈ kids.map Prod.snd
    · obtain ⟨p, hp, hpj⟩ := hkidmem j hk
      obtain ⟨tgt, htgt⟩ := hPF p hp
      rw [hpj] at htgt
      rw [htgt.1] at hf
      have hfe : tgt = f := Option.some.inj hf
      subst hfe
      have hb21 := htgt.2.1
      refine ⟨by omega, htgt.2.2.1, ?_, ?_⟩
      · rw [hdc, hdc]
        exact htgt.2.2.2.2.1
      · rw [hM2f tgt htgt.2.2.2.1]
        exact htgt.2.2.2.2.2.1
    · rw [hM2f j hk] at hf
      have hs := inv.failSpec j hj hj0 f hf
      have hs1 := hs.1
      refine ⟨by omega, hs.2.1, ?_, htouchf f hs.2.2.2⟩
      rw [hdc, hdc]
      exact hs.2.2.1
  · -- doneKidsTouched
    intro j hj ht hq p hp
    rw [hlenf] at hj
    rw [hchildf] at hp
    by_cases hjc : j = current
    · subst hjc
      exact hkidtouchf p.2 (List.mem_map.2 ⟨p, hp, rfl⟩)
    · by_cases hk : j ∈ kids.map Prod.snd
      · exact absurd (List.mem_append.2 (Or.inr hk)) hq
      · rw [hM2f j hk] at ht
        have hjq₀ : j ∉ current :: rest := by
          intro hh
          rcases List.mem_cons.1 hh with h1 | h1
          · exact hjc h1
          · exact hq (List.mem_append.2 (Or.inl h1))
        have := inv.doneKidsTouched j hj ht hjq₀ p hp
        exact htouchf p.2 this
  · -- parentDone
    intro j hj hj0 ht i hi p hp hpj
    rw [hlenf] at hj hi
    rw [hchildf] at hp
    by_cases hk : j ∈ kids.map Prod.snd
    · obtain ⟨q, hq, hqj⟩ := hkidmem j hk
      have huniq := inv.wf.2.2.2.1 i hi current hcur.1 p hp q hq (by omega)
      have hic : i = current := huniq.1
      subst hic
      refine ⟨htouchf i hcur.2.2, ?_⟩
      intro hh
      rcases List.mem_append.1 hh with h1 | h1
      · exact hcurnotrest h1
      · exact hcurnotkid h1
    · rw [hM2f j hk] at ht
      have hpd := inv.parentDone j hj hj0 ht i hi p hp hpj
      refine ⟨htouchf i hpd.1, ?_⟩
      intro hh
      rcases List.mem_append.1 hh with h1 | h1
      · exact hpd.2 (List.mem_cons_of_mem _ h1)
      · rw [hkiduntouched₀ i h1] at hpd
        exact Bool.false_ne_true hpd.1
  · -- nodupQ
    rw [List.nodup_append]
    refine ⟨hrestnodup, kidsValuesNodup inv.wf hcur.1, ?_⟩
    intro a ha hb
    have := (inv.qElems a (List.mem_cons_of_mem _ ha)).2.2
    rw [hkiduntouched₀ a hb] at this
    exact Bool.false_ne_true this
  · -- qElems
    intro x hx
    rcases List.mem_append.1 hx with h | h
    · have hq1 := inv.qElems x (List.mem_cons_of_mem _ h)
      have hq2 := hq1.1
      exact ⟨by omega, hq1.2.1, htouchf x hq1.2.2⟩
    · have hb := hkidbound x h
      have hb1 := hb.1
      have hb2 := hb.2
      exact ⟨by omega, by omega, hkidtouchf x h⟩
  · -- sortedQ
    have hwin := inv.windowQ
    have hsorted₀ : rest.Pairwise (fun x y => nodeDepth ns₀ x ≤ nodeDepth ns₀ y ∧
        nodeDepth ns₀ y ≤ nodeDepth ns₀ x + 1) := (List.pairwise_cons.1 inv.sortedQ).2
    have hpw : (rest ++ kids.map (fun p => p.2)).Pairwise
        (fun x y => nodeDepth ns₀ x ≤ nodeDepth ns₀ y ∧
          nodeDepth ns₀ y ≤ nodeDepth ns₀ x + 1) := by
      rw [List.pairwise_append]
      refine ⟨hsorted₀, pairwise_window_of_const hkiddepth, ?_⟩
      intro x hx y hy
      have h1 := hwin x hx
      have h2 := hkiddepth y hy
      omega
    refine hpw.imp ?_
    intro a b hab
    rw [hdc, hdc]
    exact hab
  · -- untouchedDeep
    intro j hj ht x hx
    rw [hlenf] at hj
    rw [hdc, hdc]
    have hjk : j ∉ kids.map Prod.snd := by
      intro hk
      have := hkidtouchf j hk
      rw [ht] at this
      exact Bool.false_ne_true this
    have ht₀ : ((getNode ns₀ j).failure).isSome = false := by
      rw [← hM2f j hjk]
      exact ht
    have hj0 : j ≠ 0 := by
      intro hh
      rw [hh, inv.rootFail] at ht₀
      simp at ht₀
    obtain ⟨i, hi, p, hp, hpj⟩ := inv.wf.2.2.2.2 j hj hj0
    have hdj : nodeDepth ns₀ j = nodeDepth ns₀ i + 1 := by
      have hp' : (p.1, j) ∈ (getNode ns₀ i).children := by
        rw [← hpj]
        exact hp
      exact nodeDepth_child inv.wf hi hp'
    have hdi : nodeDepth ns₀ current ≤ nodeDepth ns₀ i := by
      by_cases hti : ((getNode ns₀ i).failure).isSome = true
      · by_cases hiq : i ∈ current :: rest
        · rcases List.mem_cons.1 hiq with h1 | h1
          · rw [h1]
          · have := inv.windowQ i h1
            omega
        · have := inv.doneKidsTouched i hi hti hiq p hp
          rw [hpj, ht₀] at this
          exact absurd this Bool.false_ne_true
      · have hfi : ((getNode ns₀ i).failure).isSome = false := by
          simpa using hti
        have := inv.untouchedDeep i hi hfi current (List.mem_cons_self _ _)
        omega
    rcases List.mem_append.1 hx with h1 | h1
    · have := inv.windowQ x h1
      omega
    · have := hkiddepth x h1
      omega
  · -- InvO is preserved
    intro ho j hj hj0 f hf s hs
    rw [hlenf] at hj
    by_cases hk : j ∈ kids.map Prod.snd
    · obtain ⟨p, hp, hpj⟩ := hkidmem j hk
      obtain ⟨tgt, htgt⟩ := hPF p hp
      rw [hpj] at htgt
      rw [htgt.1] at hf
      have hfe : tgt = f := Option.some.inj hf
      subst hfe
      rw [htgt.2.2.2.2.2.2]
      rw [hM2f tgt htgt.2.2.2.1] at hs
      exact List.mem_append_right _ hs
    · rw [hM2f j hk] at hf ⊢
      have hfs := inv.failSpec j hj hj0 f hf
      have hfk : f ∉ kids.map Prod.snd := by
        intro hh
        rw [hkiduntouched₀ f hh] at hfs
        exact Bool.false_ne_true hfs.2.2.2
      rw [hM2f f hfk] at hs
      exact ho j hj hj0 f hf s hs
  · -- progress
    unfold doneCount
    rw [hlenf]
    have hsub : (Finset.range ns₀.length).filter
        (fun j => ((getNode ns₀ j).failure).isSome = true ∧ j ∉ current :: rest)
        ⊆ (Finset.range ns₀.length).filter
          (fun j => ((getNode nsf j).failure).isSome = true ∧
            j ∉ rest ++ kids.map (fun p => p.2)) := by
      intro j hj
      rw [Finset.mem_filter] at hj ⊢
      refine ⟨hj.1, htouchf j hj.2.1, ?_⟩
      intro hh
      rcases List.mem_append.1 hh with h1 | h1
      · exact hj.2.2 (List.mem_cons_of_mem _ h1)
      · have := hj.2.1
        rw [hkiduntouched₀ j h1] at this
        exact Bool.false_ne_true this
    apply Finset.card_lt_card
    refine (Finset.ssubset_iff_of_subset hsub).2 ⟨current, ?_, ?_⟩
    · rw [Finset.mem_filter]
      refine ⟨Finset.mem_range.2 hcur.1, htouchf current hcur.2.2, ?_⟩
      intro hh
      rcases List.mem_append.1 hh with h1 | h1
      · exact hcurnotrest h1
      · exact hcurnotkid h1
    · intro hmem
      exact (Finset.mem_filter.1 hmem).2.2 (List.mem_cons_self _ _)

/-- While the queue is non-empty, not every node is processed. -/
theorem doneCount_lt {ns : List TrieNode} {current : Nat} {rest : List Nat}
    (inv : InvS ns (current :: rest)) : doneCount ns (current :: rest) < ns.length := by
  have hcur := inv.currentFacts
  have hcur1 := hcur.1
  unfold doneCount
  calc ((Finset.range ns.length).filter
      (fun j => ((getNode ns j).failure).isSome = true ∧ j ∉ current :: rest)).card
      < (Finset.range ns.length).card := by
        apply Finset.card_lt_card
        refine (Finset.ssubset_iff_of_subset (Finset.filter_subset _ _)).2
          ⟨current, Finset.mem_range.2 hcur1, ?_⟩
        intro hmem
        exact (Finset.mem_filter.1 hmem).2.2 (List.mem_cons_self _ _)
    _ = ns.length := Finset.card_range ns.length

/-- Running the BFS with enough fuel drains the queue while preserving the
invariants. -/
theorem bfsLoop_inv :
    ∀ (fuel : Nat) (ns : List TrieNode) (q : List Nat),
      InvS ns q → ns.length ≤ fuel + doneCount ns q →
      InvS (bfsLoop fuel ns q) [] ∧ (InvO ns → InvO (bfsLoop fuel ns q))
  | 0, ns, q, inv, hfuel => by
      cases q with
      | nil => exact ⟨inv, fun h => h⟩
      | cons current rest =>
          exfalso
          have := doneCount_lt inv
          omega
  | fuel + 1, ns, q, inv, hfuel => by
      cases q with
      | nil => exact ⟨inv, fun h => h⟩
      | cons current rest =>
          have hstep := bfs_step inv
          have hlen' : (processKids current ns (getNode ns current).children).length
              = ns.length :=
            (sameShape_processKids current (getNode ns current).children ns).1
          have hprog := hstep.2.2
          have ih := bfsLoop_inv fuel
            (processKids current ns (getNode ns current).children)
            (rest ++ ((getNode ns current).children.map (fun p => p.2)))
            hstep.1 (by omega)
          rw [bfsLoop]
          exact ⟨ih.1, fun h => ih.2 (hstep.2.1 h)⟩

/-- Once the queue has drained, every node of the (connected, well-formed)
trie has been reached. -/
theorem InvS.allTouched {ns : List TrieNode} (inv : InvS ns []) :
    ∀ j < ns.length, ((getNode ns j).failure).isSome = true := by
  intro j
  induction j using Nat.strong_induction_on with
  | _ j ih =>
      intro hj
      by_cases hj0 : j = 0
      · subst hj0
        rw [inv.rootFail]
        rfl
      · obtain ⟨i, hi, p, hp, hpj⟩ := inv.wf.2.2.2.2 j hj hj0
        have hij : i < j := by
          have := inv.wf.2.1 i hi p hp
          omega
        have hti := ih i hij hi
        have := inv.doneKidsTouched i hi hti (List.not_mem_nil i) p hp
        rw [hpj] at this
        exact this

/-- Effect of the root-children initialization loop on each node. -/
theorem initRootKids_get :
    ∀ (kids : List (Char × Nat)) (ns : List TrieNode) (j : Nat),
      (j ∉ kids.map Prod.snd → getNode (initRootKids ns kids) j = getNode ns j) ∧
      (j ∈ kids.map Prod.snd → j < ns.length →
        getNode (initRootKids ns kids) j = { getNode ns j with failure := some 0 })
  | [], ns, j => ⟨fun _ => rfl, fun h _ => absurd h (by simp)⟩
  | (c, t) :: kids, ns, j => by
      have ih := initRootKids_get kids
        (updNode ns t (fun nd => { nd with failure := some 0 })) j
      rw [show initRootKids ns ((c, t) :: kids)
          = initRootKids (updNode ns t (fun nd => { nd with failure := some 0 })) kids
          from rfl]
      constructor
      · intro hj
        have hjt : j ≠ t := by
          intro hh
          exact hj (by
            rw [hh]
            exact List.mem_map.2 ⟨(c, t), List.mem_cons_self _ _, rfl⟩)
        have hjk : j ∉ kids.map Prod.snd := by
          intro hh
          exact hj (by simpa using Or.inr hh)
        rw [ih.1 hjk, getNode_updNode_ne _ (fun hh => hjt hh.symm)]
      · intro hj hjlen
        by_cases hjk : j ∈ kids.map Prod.snd
        · rw [ih.2 hjk (by rw [length_updNode]; exact hjlen)]
          by_cases hjt : j = t
          · subst hjt
            rw [getNode_updNode_self _ hjlen]
          · rw [getNode_updNode_ne _ (fun hh => hjt hh.symm)]
        · have hjt : j = t := by
            have : j = t ∨ j ∈ kids.map Prod.snd := by simpa using hj
            rcases this with h1 | h1
            · exact h1
            · exact absurd h1 hjk
          subst hjt
          rw [ih.1 hjk, getNode_updNode_self _ hjlen]

/-- After the initialization loop of `build_failure_links`, a fresh
automaton's state satisfies the BFS invariant, with the root's children as
queue; if the root's output list is empty (no empty pattern was ever
inserted) the output overlay holds as well. -/
theorem init_InvS {ac : AhoCorasick} (h : PreAuto ac) :
    InvS (initRootKids ac.nodes (getNode ac.nodes 0).children)
      ((getNode ac.nodes 0).children.map (fun p => p.2)) ∧
    ((getNode ac.nodes 0).output = [] →
      InvO (initRootKids ac.nodes (getNode ac.nodes 0).children)) := by
  set ns₀ := ac.nodes with hns₀
  set kids := (getNode ns₀ 0).children with hkids
  set ns₁ := initRootKids ns₀ kids with hns₁
  have hwf := h.1
  have hroot0 : (0 : Nat) < ns₀.length := hwf.1
  have hb1 : ns₀.length = ac.nodes.length := rfl
  have hb2 : ∀ j, nodeDepth ns₀ j = nodeDepth ac.nodes j := fun _ => rfl
  have hkidbound : ∀ j ∈ kids.map Prod.snd, 0 < j ∧ j < ns₀.length := by
    intro j hj
    obtain ⟨p, hp, hpj⟩ := List.mem_map.1 hj
    have := hwf.2.1 0 hroot0 p hp
    omega
  have hrootnotkid : (0 : Nat) ∉ kids.map Prod.snd := by
    intro hc
    have := hkidbound 0 hc
    omega
  have hShape : SameShape ns₀ ns₁ := sameShape_initRootKids kids ns₀
  have hlen : ns₁.length = ns₀.length := hShape.1
  have hdc : ∀ j, nodeDepth ns₁ j = nodeDepth ns₀ j := nodeDepth_congr hShape
  have hchild : ∀ j, (getNode ns₁ j).children = (getNode ns₀ j).children :=
    fun j => (hShape.2 j).1
  have hget := initRootKids_get kids ns₀
  have hgetkid : ∀ j ∈ kids.map Prod.snd,
      getNode ns₁ j = { getNode ns₀ j with failure := some 0 } := by
    intro j hj
    exact (hget j).2 hj (hkidbound j hj).2
  have hrootfail : (getNode ns₁ 0).failure = some 0 := by
    rw [(hget 0).1 hrootnotkid]
    exact h.2.1
  have hkiddepth1 : ∀ j ∈ kids.map Prod.snd, nodeDepth ns₀ j = 1 := by
    intro j hj
    have := kidDepth hwf hroot0 hj
    rw [nodeDepth_zero] at this
    exact this
  have huntouched : ∀ j < ns₀.length, j ≠ 0 → j ∉ kids.map Prod.snd →
      (getNode ns₁ j).failure = none := by
    intro j hj hj0 hjk
    rw [(hget j).1 hjk]
    exact h.2.2 j hj hj0
  refine ⟨⟨?_, ?_, ?_, ?_, ?_, ?_, ?_, ?_, ?_, ?_⟩, ?_⟩
  · exact WFTrie_congr hlen hchild hwf
  · exact hrootfail
  · intro hmem
    exact hrootnotkid hmem
  · -- failSpec
    intro j hj hj0 f hf
    rw [hlen] at hj
    by_cases hjk : j ∈ kids.map Prod.snd
    · rw [hgetkid j hjk] at hf
      have hf0 : (0 : Nat) = f := Option.some.inj hf
      subst hf0
      refine ⟨by omega, by omega, ?_, by rw [hrootfail]; rfl⟩
      rw [hdc, hdc, nodeDepth_zero]
      exact nodeDepth_pos hwf hj hj0
    · rw [huntouched j hj hj0 hjk] at hf
      exact absurd hf (by simp)
  · -- doneKidsTouched
    intro j hj ht hq p hp
    rw [hlen] at hj
    rw [hchild] at hp
    by_cases hj0 : j = 0
    · subst hj0
      have hpk : p.2 ∈ kids.map Prod.snd := List.mem_map.2 ⟨p, hp, rfl⟩
      rw [hgetkid p.2 hpk]
      rfl
    · by_cases hjk : j ∈ kids.map Prod.snd
      · exact absurd hjk hq
      · rw [huntouched j hj hj0 hjk] at ht
        exact absurd ht (by simp)
  · -- parentDone
    intro j hj hj0 ht i hi p hp hpj
    rw [hlen] at hj hi
    rw [hchild] at hp
    by_cases hjk : j ∈ kids.map Prod.snd
    · obtain ⟨q, hq, hqj⟩ := List.mem_map.1 hjk
      have huniq := hwf.2.2.2.1 i hi 0 hroot0 p hp q hq (by omega)
      have hic : i = 0 := huniq.1
      subst hic
      exact ⟨by rw [hrootfail]; rfl, hrootnotkid⟩
    · rw [huntouched j hj hj0 hjk] at ht
      exact absurd ht (by simp)
  · -- nodupQ
    exact kidsValuesNodup hwf hroot0
  · -- qElems
    intro x hx
    have hb := hkidbound x hx
    refine ⟨by omega, by omega, ?_⟩
    rw [hgetkid x hx]
    rfl
  · -- sortedQ
    refine @pairwise_window_of_const (nodeDepth ns₁) 1 _ ?_
    intro x hx
    rw [hdc]
    exact hkiddepth1 x hx
  · -- untouchedDeep
    intro j hj ht x hx
    rw [hlen] at hj
    rw [hdc, hdc]
    have hj0 : j ≠ 0 := by
      intro hh
      rw [hh, hrootfail] at ht
      simp at ht
    have hdx : nodeDepth ns₀ x = 1 := hkiddepth1 x hx
    have hdp := nodeDepth_pos hwf hj hj0
    have hbx := hb2 x
    have hbj := hb2 j
    omega
  · -- InvO
    intro hout j hj hj0 f hf s hs
    rw [hlen] at hj
    by_cases hjk : j ∈ kids.map Prod.snd
    · rw [hgetkid j hjk] at hf
      have hf0 : (0 : Nat) = f := Option.some.inj hf
      subst hf0
      rw [(hget 0).1 hrootnotkid] at hs
      rw [hout] at hs
      exact absurd hs (List.not_mem_nil s)
    · rw [huntouched j hj hj0 hjk] at hf
      exact absurd hf (by simp)

/-- `build_failure_links` on any freshly inserted automaton: the drained
BFS state satisfies the structural invariant; when the root's output list
is empty the output overlay holds too. -/
theorem build_final {ac : AhoCorasick} (h : PreAuto ac) :
    InvS (build_failure_links ac).nodes [] ∧
    ((getNode ac.nodes 0).output = [] → InvO (build_failure_links ac).nodes) := by
  have hinit := init_InvS h
  have hlen1 : (initRootKids ac.nodes (getNode ac.nodes 0).children).length
      = ac.nodes.length := (sameShape_initRootKids _ _).1
  have hloop := bfsLoop_inv ac.nodes.length
    (initRootKids ac.nodes (getNode ac.nodes 0).children)
    ((getNode ac.nodes 0).children.map (fun p => p.2))
    hinit.1 (by omega)
  exact ⟨hloop.1, fun hout => hloop.2 (hinit.2 hout)⟩

/-- C4: after `build_failure_links` on an automaton built from any sequence
of non-empty patterns, the root's failure link points to the root itself,
and every non-root node's failure link exists and points to a node of
strictly smaller depth (depth-1 nodes point to the root at depth 0). -/
theorem depth_monotonicity (ps : List String) (hne : ∀ p ∈ ps, p ≠ "") :
    (getNode (buildAutomaton ps).nodes 0).failure = some 0 ∧
    ∀ j, j < (buildAutomaton ps).nodes.length → j ≠ 0 →
      ∃ f, (getNode (buildAutomaton ps).nodes j).failure = some f ∧
        nodeDepth (buildAutomaton ps).nodes f < nodeDepth (buildAutomaton ps).nodes j := by
  have hfin := build_final (insertAll_pre ps)
  have inv : InvS (buildAutomaton ps).nodes [] := hfin.1
  refine ⟨inv.rootFail, ?_⟩
  intro j hj hj0
  have ht := inv.allTouched j hj
  obtain ⟨f, hf⟩ := Option.isSome_iff_exists.1 ht
  have hs := inv.failSpec j hj hj0 f hf
  exact ⟨f, hf, hs.2.2.1⟩

theorem depth_monotonicity_witness :
    (∀ p ∈ ["he", "she", "his"], p ≠ "") ∧
    ((getNode (buildAutomaton ["he", "she", "his"]).nodes 0).failure = some 0 ∧
     ∀ j, j < (buildAutomaton ["he", "she", "his"]).nodes.length → j ≠ 0 →
       ∃ f, (getNode (buildAutomaton ["he", "she", "his"]).nodes j).failure = some f ∧
         nodeDepth (buildAutomaton ["he", "she", "his"]).nodes f
           < nodeDepth (buildAutomaton ["he", "she", "his"]).nodes j) :=
  ⟨by decide, depth_monotonicity ["he", "she", "his"] (by decide)⟩

/-- C5: after `build_failure_links` on an automaton built from any sequence
of non-empty patterns, every node's output list contains every entry of
its failure target's output list. -/
theorem output_superset (ps : List String) (hne : ∀ p ∈ ps, p ≠ "") :
    ∀ j, j < (buildAutomaton ps).nodes.length →
      ∀ f, (getNode (buildAutomaton ps).nodes j).failure = some f →
        ∀ s ∈ (getNode (buildAutomaton ps).nodes f).output,
          s ∈ (getNode (buildAutomaton ps).nodes j).output := by
  have hfin := build_final (insertAll_pre ps)
  have inv : InvS (buildAutomaton ps).nodes [] := hfin.1
  have invO : InvO (buildAutomaton ps).nodes := hfin.2 (insertAll_rootOutput hne)
  intro j hj f hf s hs
  by_cases hj0 : j = 0
  · subst hj0
    rw [inv.rootFail] at hf
    have hf0 : f = 0 := (Option.some.inj hf).symm
    rw [hf0] at hs
    exact hs
  · exact invO j hj hj0 f hf s hs

theorem output_superset_witness :
    (∀ p ∈ ["he", "she", "his"], p ≠ "") ∧
    (∀ j, j < (buildAutomaton ["he", "she", "his"]).nodes.length →
      ∀ f, (getNode (buildAutomaton ["he", "she", "his"]).nodes j).failure = some f →
        ∀ s ∈ (getNode (buildAutomaton ["he", "she", "his"]).nodes f).output,
          s ∈ (getNode (buildAutomaton ["he", "she", "his"]).nodes j).output) :=
  ⟨by decide, output_superset ["he", "she", "his"] (by decide)⟩

/-- C7: the failure link assigned to each child during `build_failure_links`
(computed by `findFailureNode` from the parent's failure node and guarded
against self-reference in `setChildFailure`, the direct embeddings of the
loop of lines 44-59) never makes a node its own failure target: after the
build, a node's failure link equals the node itself exactly for the root. -/
theorem no_self_failure (ps : List String) :
    (getNode (buildAutomaton ps).nodes 0).failure = some 0 ∧
    ∀ j, j < (buildAutomaton ps).nodes.length →
      ∀ f, (getNode (buildAutomaton ps).nodes j).failure = some f → (f = j ↔ j = 0) := by
  have hfin := build_final (insertAll_pre ps)
  have inv : InvS (buildAutomaton ps).nodes [] := hfin.1
  refine ⟨inv.rootFail, ?_⟩
  intro j hj f hf
  constructor
  · intro hfj
    by_contra hj0
    exact (inv.failSpec j hj hj0 f hf).2.1 hfj
  · intro hj0
    subst hj0
    rw [inv.rootFail] at hf
    exact (Option.some.inj hf).symm

/-- C6: the whole pipeline is a pure function of the ordered pattern
sequence (the embedding's child maps keep Python's insertion-ordered dict
iteration), so two automatons built from the same ordered sequence agree on
arena length, per-position node ids, trie shape and failure links. -/
theorem build_deterministic (ps : List String) (a1 a2 : AhoCorasick)
    (h1 : a1 = buildAutomaton ps) (h2 : a2 = buildAutomaton ps) :
    a1.nodes.length = a2.nodes.length ∧
    a1.node_counter = a2.node_counter ∧
    ∀ j, (getNode a1.nodes j).node_id = (getNode a2.nodes j).node_id ∧
      (getNode a1.nodes j).children = (getNode a2.nodes j).children ∧
      (getNode a1.nodes j).failure = (getNode a2.nodes j).failure := by
  subst h1
  subst h2
  exact ⟨rfl, rfl, fun j => ⟨rfl, rfl, rfl⟩⟩

theorem build_deterministic_witness :
    (buildAutomaton ["ab", "b"]).nodes.length = (buildAutomaton ["ab", "b"]).nodes.length ∧
    (buildAutomaton ["ab", "b"]).node_counter = (buildAutomaton ["ab", "b"]).node_counter ∧
    ∀ j, (getNode (buildAutomaton ["ab", "b"]).nodes j).node_id
        = (getNode (buildAutomaton ["ab", "b"]).nodes j).node_id ∧
      (getNode (buildAutomaton ["ab", "b"]).nodes j).children
        = (getNode (buildAutomaton ["ab", "b"]).nodes j).children ∧
      (getNode (buildAutomaton ["ab", "b"]).nodes j).failure
        = (getNode (buildAutomaton ["ab", "b"]).nodes j).failure :=
  build_deterministic ["ab", "b"] (buildAutomaton ["ab", "b"])
    (buildAutomaton ["ab", "b"]) rfl rfl

/-- If the depth-first `find_path` search returns a path, its target is a
node of the arena. -/
theorem findPathAux_target_lt {ns : List TrieNode} (wf : WFTrie ns) {target : Nat} :
    ∀ (fuel node : Nat) (path s : String),
      node < ns.length → findPathAux ns target fuel node path = some s →
      target < ns.length := by
  intro fuel
  induction fuel with
  | zero =>
      intro node path s hn h
      exact absurd h (by simp [findPathAux])
  | succ fuel ih =>
      intro node path s hn h
      rw [findPathAux] at h
      by_cases he : node = target
      · subst he
        exact hn
      · rw [if_neg he] at h
        obtain ⟨p, hp, hps⟩ := List.exists_of_findSome?_eq_some h
        exact ih p.2 (path.push p.1) s (wf.2.1 node hn p hp).2 hps

/-- C3 amended: asking for the path to a node that is not one of the
automaton's nodes does not fail — `get_path_to_node` returns the explicit
sentinel string `"UNKNOWN"`. -/
theorem path_foreign_unknown (ac : AhoCorasick) (hwf : WFTrie ac.nodes)
    (target : Nat) (h : ac.nodes.length ≤ target) :
    get_path_to_node ac target = "UNKNOWN" := by
  unfold get_path_to_node
  have ht0 : target ≠ 0 := by
    have := hwf.1
    omega
  rw [if_neg ht0]
  cases hfp : findPathAux ac.nodes target (ac.nodes.length + 1) 0 "" with
  | none => rfl
  | some s =>
      exfalso
      have := findPathAux_target_lt hwf _ 0 "" s hwf.1 hfp
      omega

theorem path_foreign_unknown_witness :
    WFTrie (buildAutomaton ["ab", "b"]).nodes ∧
    (buildAutomaton ["ab", "b"]).nodes.length ≤ 99 ∧
    get_path_to_node (buildAutomaton ["ab", "b"]) 99 = "UNKNOWN" :=
  ⟨(build_final (insertAll_pre ["ab", "b"])).1.wf, by decide,
   path_foreign_unknown (buildAutomaton ["ab", "b"])
     (build_final (insertAll_pre ["ab", "b"])).1.wf 99 (by decide)⟩

/-! ## Paths in the trie

`Walk ns i cs j` is the proposition that following the characters `cs`
through the child maps leads from node `i` to node `j`. -/

inductive Walk (ns : List TrieNode) : Nat → List Char → Nat → Prop
  | refl (i : Nat) : Walk ns i [] i
  | step {i : Nat} {c : Char} {j k : Nat} {cs : List Char} :
      (c, j) ∈ (getNode ns i).children → Walk ns j cs k → Walk ns i (c :: cs) k

theorem walk_nil_inv {ns : List TrieNode} {i j : Nat} (h : Walk ns i [] j) : i = j := by
  cases h
  rfl

/-- Walks follow strictly increasing arena indices and stay inside the
arena. -/
theorem walk_le {ns : List TrieNode} (wf : WFTrie ns) :
    ∀ {cs : List Char} {i j : Nat}, i < ns.length → Walk ns i cs j →
      i + cs.length ≤ j ∧ j < ns.length := by
  intro cs
  induction cs with
  | nil =>
      intro i j hi h
      have := walk_nil_inv h
      subst this
      exact ⟨by simp, hi⟩
  | cons c cs ih =>
      intro i j hi h
      cases h with
      | step hmem hw =>
          have hb := wf.2.1 i hi _ hmem
          have hih := ih hb.2 hw
          simp only [List.length_cons]
          omega

theorem walk_append_child {ns : List TrieNode} {i : Nat} {cs : List Char} {p : Nat}
    (hw : Walk ns i cs p) {c : Char} {j : Nat} (hmem : (c, j) ∈ (getNode ns p).children) :
    Walk ns i (cs ++ [c]) j := by
  induction hw with
  | refl => exact Walk.step hmem (Walk.refl j)
  | step hmem' _ ih => exact Walk.step hmem' (ih hmem)

theorem walk_snoc_inv {ns : List TrieNode} {c : Char} :
    ∀ {cs : List Char} {i j : Nat}, Walk ns i (cs ++ [c]) j →
      ∃ p, Walk ns i cs p ∧ (c, j) ∈ (getNode ns p).children
  | [], i, j, h => by
      cases h with
      | step hmem hw =>
          have := walk_nil_inv hw
          subst this
          exact ⟨i, Walk.refl i, hmem⟩
  | c₀ :: cs, i, j, h => by
      cases h with
      | step hmem hw =>
          obtain ⟨p, hwp, hpm⟩ := walk_snoc_inv hw
          exact ⟨p, Walk.step hmem hwp, hpm⟩

/-- Two child entries of one node with the same character coincide. -/
theorem keys_nodup_eq {l : List (Char × Nat)} (hnd : (l.map Prod.fst).Nodup) :
    ∀ {p q : Char × Nat}, p ∈ l → q ∈ l → p.1 = q.1 → p = q := by
  induction l with
  | nil =>
      intro p q hp _ _
      exact absurd hp (List.not_mem_nil p)
  | cons a l ih =>
      intro p q hp hq hpq
      simp only [List.map_cons, List.nodup_cons] at hnd
      rcases List.mem_cons.1 hp with h1 | h1 <;> rcases List.mem_cons.1 hq with h2 | h2
      · rw [h1, h2]
      · subst h1
        exact absurd (hpq ▸ List.mem_map_of_mem Prod.fst h2) hnd.1
      · subst h2
        exact absurd (hpq ▸ List.mem_map_of_mem Prod.fst h1) hnd.1
      · exact ih hnd.2 h1 h2 hpq

/-- In a well-formed trie there is at most one labelled path between two
nodes. -/
theorem walk_unique {ns : List TrieNode} (wf : WFTrie ns) {i : Nat} (hi : i < ns.length) :
    ∀ j, ∀ {cs cs' : List Char}, Walk ns i cs j → Walk ns i cs' j → cs = cs' := by
  intro j
  induction j using Nat.strong_induction_on with
  | _ j ihj =>
      intro cs cs' h h'
      cases hcs : cs with
      | nil =>
          rw [hcs] at h
          have hij := walk_nil_inv h
          subst hij
          have := (walk_le wf hi h').1
          cases cs' with
          | nil => rfl
          | cons a l => simp at this
      | cons a l =>
          have hne : cs ≠ [] := by rw [hcs]; simp
          have hne' : cs' ≠ [] := by
            intro hh
            rw [hh] at h'
            have hij := walk_nil_inv h'
            subst hij
            have := (walk_le wf hi h).1
            rw [hcs] at this
            simp at this
          obtain ⟨ds, d, rfl⟩ : ∃ L b, cs = L ++ [b] := by
            rcases List.eq_nil_or_concat cs with h0 | h0
            · exact absurd h0 hne
            · obtain ⟨L, b, hlb⟩ := h0
              exact ⟨L, b, by simpa using hlb⟩
          obtain ⟨ds', d', rfl⟩ : ∃ L b, cs' = L ++ [b] := by
            rcases List.eq_nil_or_concat cs' with h0 | h0
            · exact absurd h0 hne'
            · obtain ⟨L, b, hlb⟩ := h0
              exact ⟨L, b, by simpa using hlb⟩
          obtain ⟨p, hwp, hpm⟩ := walk_snoc_inv h
          obtain ⟨p', hwp', hpm'⟩ := walk_snoc_inv h'
          have hpn : p < ns.length := (walk_le wf hi hwp).2
          have hpn' : p' < ns.length := (walk_le wf hi hwp').2
          have huniq := wf.2.2.2.1 p hpn p' hpn' (d, j) hpm (d', j) hpm' rfl
          have hpp : p = p' := huniq.1
          have hdd : d = d' := by
            have := huniq.2
            simp only [Prod.mk.injEq] at this
            exact this.1
          subst hpp
          subst hdd
          have hpj : p < j := by
            have := wf.2.1 p hpn (d, j) hpm
            omega
          have hds := ihj p hpj hwp hwp'
          rw [← hcs, hds]

theorem string_push_append (path : String) (c : Char) (cs : List Char) :
    (path.push c) ++ String.mk cs = path ++ String.mk (c :: cs) := by
  cases path with
  | mk l =>
      show String.mk ((l ++ [c]) ++ cs) = String.mk (l ++ (c :: cs))
      rw [List.append_assoc]
      rfl

theorem string_append_mk_nil (path : String) : path ++ String.mk [] = path := by
  cases path with
  | mk l =>
      show String.mk (l ++ []) = String.mk l
      rw [List.append_nil]

theorem string_empty_append (s : String) : "" ++ s = s := by
  cases s with
  | mk l =>
      show String.mk ([] ++ l) = String.mk l
      rw [List.nil_append]

theorem string_mk_ne_empty {cs : List Char} (h : cs ≠ []) : String.mk cs ≠ "" := by
  intro hh
  have : cs = [] := congrArg String.data hh
  exact h this

/-- Soundness of the depth-first `find_path`: a returned string is the
accumulated prefix followed by the labels of a walk to the target. -/
theorem findPathAux_sound {ns : List TrieNode} {target : Nat} :
    ∀ (fuel node : Nat) (path s : String),
      findPathAux ns target fuel node path = some s →
      ∃ cs, Walk ns node cs target ∧ s = path ++ String.mk cs := by
  intro fuel
  induction fuel with
  | zero =>
      intro node path s h
      exact absurd h (by simp [findPathAux])
  | succ fuel ih =>
      intro node path s h
      rw [findPathAux] at h
      by_cases he : node = target
      · rw [if_pos he] at h
        refine ⟨[], he ▸ Walk.refl node, ?_⟩
        rw [string_append_mk_nil]
        exact (Option.some.inj h).symm
      · rw [if_neg he] at h
        obtain ⟨p, hp, hps⟩ := List.exists_of_findSome?_eq_some h
        obtain ⟨cs, hw, hs⟩ := ih p.2 (path.push p.1) s hps
        refine ⟨p.1 :: cs, Walk.step ?_ hw, ?_⟩
        · exact hp
        · rw [hs, string_push_append]

/-- Completeness of `find_path`: with enough fuel, a reachable target is
found. -/
theorem findPathAux_complete {ns : List TrieNode} {target : Nat} :
    ∀ (fuel : Nat) {cs : List Char} {node : Nat} (path : String),
      Walk ns node cs target → cs.length < fuel →
      (findPathAux ns target fuel node path).isSome = true := by
  intro fuel
  induction fuel with
  | zero =>
      intro cs node path hw hlen
      exact absurd hlen (by omega)
  | succ fuel ih =>
      intro cs node path hw hlen
      rw [findPathAux]
      by_cases he : node = target
      · rw [if_pos he]
        rfl
      · rw [if_neg he]
        cases hw with
        | refl => exact absurd rfl he
        | step hmem hw' =>
            rename_i c j cs0
            cases hfs : ((getNode ns node).children.findSome?
                (fun p => findPathAux ns target fuel p.2 (path.push p.1))) with
            | some s => rfl
            | none =>
                exfalso
                rw [List.findSome?_eq_none_iff] at hfs
                have hnone := hfs (c, j) hmem
                have hlen0 : cs0.length < fuel := by
                  simp only [List.length_cons] at hlen
                  omega
                have h2 := ih (path.push c) hw' hlen0
                rw [hnone] at h2
                simp at h2

theorem get_path_root (ac : AhoCorasick) : get_path_to_node ac 0 = "ROOT" := rfl

/-- Path reconstruction is correct on every node of a well-formed trie:
`get_path_to_node` returns exactly the labels of the unique walk from the
root. -/
theorem get_path_of_walk {ac : AhoCorasick} (wf : WFTrie ac.nodes) {j : Nat}
    {cs : List Char} (hw : Walk ac.nodes 0 cs j) (hj0 : j ≠ 0) :
    get_path_to_node ac j = String.mk cs := by
  have hroot : 0 < ac.nodes.length := wf.1
  have hcsne : cs ≠ [] := by
    intro hh
    rw [hh] at hw
    exact hj0 (walk_nil_inv hw).symm
  have hle := walk_le wf hroot hw
  have hlen1 := hle.1
  have hlen2 := hle.2
  unfold get_path_to_node
  rw [if_neg hj0]
  have hcomp := findPathAux_complete (ac.nodes.length + 1) "" hw (by omega)
  obtain ⟨s, hs⟩ := Option.isSome_iff_exists.1 hcomp
  rw [hs]
  obtain ⟨cs', hw', hs'⟩ := findPathAux_sound _ 0 "" s hs
  have hcc : cs' = cs := walk_unique wf hroot j hw' hw
  have hsval : s = String.mk cs := by
    rw [hs', hcc, string_empty_append]
  have hsne : ¬(s = "") := by
    rw [hsval]
    exact string_mk_ne_empty hcsne
  show (if s = "" then "UNKNOWN" else s) = String.mk cs
  rw [if_neg hsne]
  exact hsval

/-! ## The snapshot (`get_failure_links_representation`) -/

/-- The index sequence of a depth-first traversal from a node that visits
children in sorted-by-character order: the order contract the spec states
for the snapshot. -/
def dfsIdxOrder (ns : List TrieNode) : Nat → Nat → List Nat
  | 0, _ => []
  | fuel + 1, node =>
      node :: (sortChildren (getNode ns node).children).flatMap
        (fun p => dfsIdxOrder ns fuel p.2)

/-- The record the spec prescribes for one node: its id, its reconstructed
path, its failure node's id and reconstructed path, its terminal flag and
its stored output list (kept verbatim, not deduplicated). -/
def specRecord (ac : AhoCorasick) (j : Nat) : LinkRecord :=
  { node_id := (getNode ac.nodes j).node_id,
    path := get_path_to_node ac j,
    failure_node_id := ((getNode ac.nodes j).failure).map
      (fun f => (getNode ac.nodes f).node_id),
    failure_path := match (getNode ac.nodes j).failure with
      | some f => get_path_to_node ac f
      | none => "None",
    is_end := (getNode ac.nodes j).is_end,
    output := (getNode ac.nodes j).output }

theorem mem_sortChildren {l : List (Char × Nat)} {p : Char × Nat} :
    p ∈ sortChildren l ↔ p ∈ l :=
  (List.perm_insertionSort _ l).mem_iff

theorem flatMap_congr_mem {α β : Type} {f g : α → List β} :
    ∀ {l : List α}, (∀ a ∈ l, f a = g a) → l.flatMap f = l.flatMap g
  | [], _ => rfl
  | a :: l, h => by
      simp only [List.flatMap_cons]
      rw [h a (List.mem_cons_self a l),
        flatMap_congr_mem (fun x hx => h x (List.mem_cons_of_mem a hx))]

theorem string_push_mk (l : List Char) (c : Char) :
    (String.mk l).push c = String.mk (l ++ [c]) := rfl

/-- The code's `traverse` emits, for every visited node, exactly the
spec-side record, in the sorted depth-first order: the incrementally
accumulated path argument coincides with the reconstructed
`get_path_to_node` path. -/
theorem gflrTraverse_spec {ac : AhoCorasick} (wf : WFTrie ac.nodes) :
    ∀ (fuel j : Nat) (cs : List Char), j < ac.nodes.length →
      Walk ac.nodes 0 cs j →
      gflrTraverse ac fuel j (String.mk cs)
        = (dfsIdxOrder ac.nodes fuel j).map (specRecord ac) := by
  intro fuel
  induction fuel with
  | zero =>
      intro j cs hj hw
      rfl
  | succ fuel ih =>
      intro j cs hj hw
      rw [gflrTraverse, dfsIdxOrder, List.map_cons]
      have hpath : (if String.mk cs = "" then "ROOT" else String.mk cs)
          = get_path_to_node ac j := by
        by_cases hcs : cs = []
        · subst hcs
          have hj0 : 0 = j := walk_nil_inv hw
          rw [if_pos rfl, ← hj0, get_path_root]
        · have hj0 : j ≠ 0 := by
            intro hh
            subst hh
            have := (walk_le wf wf.1 hw).1
            have hlen : cs.length = 0 := by omega
            exact hcs (List.length_eq_zero.1 hlen)
          rw [if_neg (string_mk_ne_empty hcs), get_path_of_walk wf hw hj0]
      congr 1
      · rw [mkLinkRecord, specRecord]
        rw [hpath]
      · rw [List.map_flatMap]
        apply flatMap_congr_mem
        intro p hp
        have hpmem : (p.1, p.2) ∈ (getNode ac.nodes j).children :=
          mem_sortChildren.1 hp
        have hb := wf.2.1 j hj (p.1, p.2) hpmem
        have hw' : Walk ac.nodes 0 (cs ++ [p.1]) p.2 := walk_append_child hw hpmem
        rw [string_push_mk]
        exact ih p.2 (cs ++ [p.1]) hb.2 hw'

/-- Membership in the sorted depth-first order is reachability within the
fuel bound. -/
theorem dfsIdxOrder_mem {ns : List TrieNode} (wf : WFTrie ns) :
    ∀ (fuel j k : Nat), j < ns.length →
      (k ∈ dfsIdxOrder ns fuel j ↔ ∃ cs, Walk ns j cs k ∧ cs.length < fuel) := by
  intro fuel
  induction fuel with
  | zero =>
      intro j k hj
      rw [dfsIdxOrder]
      simp only [List.not_mem_nil, false_iff]
      rintro ⟨cs, _, hlen⟩
      omega
  | succ fuel ih =>
      intro j k hj
      rw [dfsIdxOrder]
      constructor
      · intro hmem
        rcases List.mem_cons.1 hmem with h1 | h1
        · subst h1
          exact ⟨[], Walk.refl k, by simp⟩
        · obtain ⟨p, hp, hkp⟩ := List.mem_flatMap.1 h1
          have hpmem : (p.1, p.2) ∈ (getNode ns j).children := mem_sortChildren.1 hp
          have hb := wf.2.1 j hj (p.1, p.2) hpmem
          obtain ⟨cs, hw, hlen⟩ := (ih p.2 k hb.2).1 hkp
          refine ⟨p.1 :: cs, Walk.step hpmem hw, ?_⟩
          simp only [List.length_cons]
          omega
      · rintro ⟨cs, hw, hlen⟩
        cases hw with
        | refl => exact List.mem_cons_self _ _
        | step hmem hw' =>
            rename_i c m cs0
            have hb := wf.2.1 j hj (c, m) hmem
            have hlen0 : cs0.length < fuel := by
              simp only [List.length_cons] at hlen
              omega
            have hk : k ∈ dfsIdxOrder ns fuel m := (ih m k hb.2).2 ⟨cs0, hw', hlen0⟩
            refine List.mem_cons_of_mem _ (List.mem_flatMap.2 ⟨(c, m), ?_, hk⟩)
            exact mem_sortChildren.2 hmem
  
/-- Disjointness of the depth-first traversals of distinct children. -/
theorem nodup_flatMap_dfs {ns : List TrieNode} (wf : WFTrie ns) (fuel : Nat)
    {j : Nat} (hj : j < ns.length) :
    ∀ (l : List (Char × Nat)), (∀ p ∈ l, p ∈ (getNode ns j).children) →
      (l.map Prod.snd).Nodup →
      (∀ p ∈ l, (dfsIdxOrder ns fuel p.2).Nodup) →
      (l.flatMap (fun p => dfsIdxOrder ns fuel p.2)).Nodup
  | [], _, _, _ => List.nodup_nil
  | p :: l, hsub, hnd, hih => by
      simp only [List.flatMap_cons]
      rw [List.nodup_append]
      have hpmem := hsub p (List.mem_cons_self p l)
      have hpb := wf.2.1 j hj p hpmem
      simp only [List.map_cons, List.nodup_cons] at hnd
      refine ⟨hih p (List.mem_cons_self p l),
        nodup_flatMap_dfs wf fuel hj l (fun q hq => hsub q (List.mem_cons_of_mem p hq))
          hnd.2 (fun q hq => hih q (List.mem_cons_of_mem p hq)), ?_⟩
      intro k hk hk'
      obtain ⟨q, hq, hkq⟩ := List.mem_flatMap.1 hk'
      have hqmem := hsub q (List.mem_cons_of_mem p hq)
      have hqb := wf.2.1 j hj q hqmem
      obtain ⟨cs, hwc, _⟩ := (dfsIdxOrder_mem wf fuel p.2 k hpb.2).1 hk
      obtain ⟨cs', hwc', _⟩ := (dfsIdxOrder_mem wf fuel q.2 k hqb.2).1 hkq
      have hp' : (p.1, p.2) ∈ (getNode ns j).children := hpmem
      have hq' : (q.1, q.2) ∈ (getNode ns j).children := hqmem
      have hwk : Walk ns j (p.1 :: cs) k := Walk.step hp' hwc
      have hwk' : Walk ns j (q.1 :: cs') k := Walk.step hq' hwc'
      have heq := walk_unique wf hj k hwk hwk'
      have hc : p.1 = q.1 := by
        simpa using congrArg (fun L => L.headI) heq
      have hpq : p = q := keys_nodup_eq (wf.2.2.1 j hj) hpmem hqmem hc
      rw [hpq] at hnd
      exact hnd.1 (List.mem_map_of_mem Prod.snd hq)

/-- The sorted depth-first order visits each node at most once. -/
theorem dfsIdxOrder_nodup {ns : List TrieNode} (wf : WFTrie ns) :
    ∀ (fuel j : Nat), j < ns.length → (dfsIdxOrder ns fuel j).Nodup := by
  intro fuel
  induction fuel with
  | zero =>
      intro j hj
      exact List.nodup_nil
  | succ fuel ih =>
      intro j hj
      rw [dfsIdxOrder]
      rw [List.nodup_cons]
      constructor
      · intro hmem
        obtain ⟨p, hp, hkp⟩ := List.mem_flatMap.1 hmem
        have hpmem : (p.1, p.2) ∈ (getNode ns j).children := mem_sortChildren.1 hp
        have hb := wf.2.1 j hj (p.1, p.2) hpmem
        obtain ⟨cs, hw, _⟩ := (dfsIdxOrder_mem wf fuel p.2 j hb.2).1 hkp
        have hwj : Walk ns j (p.1 :: cs) j := Walk.step hpmem hw
        have := (walk_le wf hj hwj).1
        simp only [List.length_cons] at this
        omega
      · refine nodup_flatMap_dfs wf fuel hj (sortChildren (getNode ns j).children)
          (fun p hp => mem_sortChildren.1 hp) ?_ ?_
        · have hperm := (List.perm_insertionSort
            (fun a b : Char × Nat => a.1 ≤ b.1) (getNode ns j).children).map Prod.snd
          exact hperm.nodup_iff.2 (kidsValuesNodup wf hj)
        · intro p hp
          have hb := wf.2.1 j hj (p.1, p.2) (mem_sortChildren.1 hp)
          exact ih p.2 hb.2

/-- Every node of a well-formed trie is reachable from the root by a walk
no longer than its index. -/
theorem reachable_of_lt {ns : List TrieNode} (wf : WFTrie ns) :
    ∀ k, k < ns.length → ∃ cs, Walk ns 0 cs k ∧ cs.length ≤ k := by
  intro k
  induction k using Nat.strong_induction_on with
  | _ k ihk =>
      intro hk
      by_cases hk0 : k = 0
      · subst hk0
        exact ⟨[], Walk.refl 0, by simp⟩
      · obtain ⟨i, hi, p, hp, hpk⟩ := wf.2.2.2.2 k hk hk0
        have hik : i < k := by
          have := wf.2.1 i hi p hp
          omega
        obtain ⟨cs, hw, hlen⟩ := ihk i hik hi
        have hp' : (p.1, k) ∈ (getNode ns i).children := by
          rw [← hpk]
          exact hp
        refine ⟨cs ++ [p.1], walk_append_child hw hp', ?_⟩
        rw [List.length_append]
        simp only [List.length_singleton]
        omega

/-- The sorted depth-first order from the root is a permutation of all
node indices of the arena. -/
theorem dfsIdxOrder_perm {ns : List TrieNode} (wf : WFTrie ns) :
    List.Perm (dfsIdxOrder ns (ns.length + 1) 0) (List.range ns.length) := by
  refine (List.perm_ext_iff_of_nodup (dfsIdxOrder_nodup wf _ 0 wf.1)
    (List.nodup_range ns.length)).2 ?_
  intro k
  rw [List.mem_range, dfsIdxOrder_mem wf _ 0 k wf.1]
  constructor
  · rintro ⟨cs, hw, _⟩
    exact (walk_le wf wf.1 hw).2
  · intro hk
    obtain ⟨cs, hw, hlen⟩ := reachable_of_lt wf k hk
    refine ⟨cs, hw, ?_⟩
    have := (walk_le wf wf.1 hw).2
    omega

/-- C9: on every well-formed automaton (every automaton built through the
public operations), `get_failure_links_representation` returns exactly one
record per trie node, in sorted depth-first order, and each record carries
the node's id, its reconstructed path (`"ROOT"` for the root), its failure
node's id and reconstructed path, its terminal flag and its stored output
list verbatim. -/
theorem snapshot_spec (ac : AhoCorasick) (hwf : WFTrie ac.nodes) :
    get_failure_links_representation ac
      = (dfsIdxOrder ac.nodes (ac.nodes.length + 1) 0).map (specRecord ac) ∧
    List.Perm (dfsIdxOrder ac.nodes (ac.nodes.length + 1) 0)
      (List.range ac.nodes.length) := by
  constructor
  · exact gflrTraverse_spec hwf (ac.nodes.length + 1) 0 [] hwf.1 (Walk.refl 0)
  · exact dfsIdxOrder_perm hwf

theorem snapshot_spec_witness :
    WFTrie (buildAutomaton ["ab", "b"]).nodes ∧
    (get_failure_links_representation (buildAutomaton ["ab", "b"])
      = (dfsIdxOrder (buildAutomaton ["ab", "b"]).nodes
          ((buildAutomaton ["ab", "b"]).nodes.length + 1) 0).map
        (specRecord (buildAutomaton ["ab", "b"])) ∧
     List.Perm (dfsIdxOrder (buildAutomaton ["ab", "b"]).nodes
        ((buildAutomaton ["ab", "b"]).nodes.length + 1) 0)
      (List.range (buildAutomaton ["ab", "b"]).nodes.length)) :=
  ⟨(build_final (insertAll_pre ["ab", "b"])).1.wf,
   snapshot_spec (buildAutomaton ["ab", "b"])
     (build_final (insertAll_pre ["ab", "b"])).1.wf⟩
